import Mathlib

/-!
Verification of the batched FJSP scheduling-state simulator (`env/fjsp_env.py`).

The batched tensor code applies the same per-slot update to every active
instance of the batch; the slots are independent (the only cross-slot value,
the global sentinel `torch.max(feat_opes_batch[:, 4, :]) + 1` used by
`next_time`, is proved below never to win the minimum on reachable states,
so the per-slot semantics coincides with the batched one).  We therefore
embed the state and transitions of one instance slot, with exact rational
arithmetic in place of the float tensors.  Machine indices and job indices
that the source stores as floats inside `schedules_batch` / `machines_batch`
and reads back with `int(...)` are represented as naturals; the 0/1 status
and idle cells are represented as `ℚ`-valued resp. `Bool` fields matching
how the source reads them.

The instance loader (`env/load_data.py`) is not part of the sources under
verification; its outputs (eligibility/duration matrices, the job ranges and
the cumulative-path adjacency) are modelled from the spec, see `Inst`,
`adj0`, `A0` and `WF` below.
-/

set_option maxHeartbeats 2000000
set_option maxRecDepth 10000

namespace FJSP

/-- Literal `1e-9` of the source (`feat_opes_batch[:, 2, :]` divisor and the
utilization divisor in `step`). -/
def eps9 : ℚ := 1 / 1000000000

/-- Literal `1e-5` of the source (utilization divisor in `next_time`). -/
def eps5 : ℚ := 1 / 100000

/-- Maximum of `f 0, …, f (n-1)`, the embedding of `torch.max` over one
tensor dimension (the tensor is nonempty in the source, so the `f 0` seed is
only a formal base). -/
def maxOver (n : ℕ) (f : ℕ → ℚ) : ℚ :=
  (List.range n).foldl (fun a i => max a (f i)) (f 0)

/-- Minimum of `f 0, …, f (n-1)`, the embedding of `torch.min` over one
tensor dimension. -/
def minOver (n : ℕ) (f : ℕ → ℚ) : ℚ :=
  (List.range n).foldl (fun a i => min a (f i)) (f 0)

theorem foldl_max_init_le {l : List ℕ} {f : ℕ → ℚ} {a : ℚ} :
    a ≤ l.foldl (fun a i => max a (f i)) a := by
  induction l generalizing a with
  | nil => exact le_rfl
  | cons x xs ih => exact le_trans (le_max_left _ _) ih

theorem foldl_max_le {l : List ℕ} {f : ℕ → ℚ} {a : ℚ} {i : ℕ}
    (h : i ∈ l) : f i ≤ l.foldl (fun a i => max a (f i)) a := by
  induction l generalizing a with
  | nil => cases h
  | cons x xs ih =>
    rcases List.mem_cons.1 h with rfl | hx
    · simp only [List.foldl_cons]
      exact le_trans (le_max_right a (f i)) foldl_max_init_le
    · exact ih hx

theorem le_maxOver {n i : ℕ} (f : ℕ → ℚ) (h : i < n) : f i ≤ maxOver n f :=
  foldl_max_le (List.mem_range.2 h)

theorem maxOver_le {n : ℕ} {f : ℕ → ℚ} {c : ℚ} (h0 : f 0 ≤ c)
    (h : ∀ i < n, f i ≤ c) : maxOver n f ≤ c := by
  unfold maxOver
  have : ∀ l : List ℕ, (∀ i ∈ l, f i ≤ c) → ∀ a, a ≤ c →
      l.foldl (fun a i => max a (f i)) a ≤ c := by
    intro l
    induction l with
    | nil => intro _ a ha; exact ha
    | cons x xs ih =>
      intro hm a ha
      exact ih (fun i hi => hm i (List.mem_cons_of_mem _ hi)) _
        (max_le ha (hm x (List.mem_cons_self _ _)))
  exact this _ (fun i hi => h i (List.mem_range.1 hi)) _ h0

theorem foldl_min_init_le {l : List ℕ} {f : ℕ → ℚ} {a : ℚ} :
    l.foldl (fun a i => min a (f i)) a ≤ a := by
  induction l generalizing a with
  | nil => exact le_rfl
  | cons x xs ih => exact le_trans ih (min_le_left _ _)

theorem foldl_min_le {l : List ℕ} {f : ℕ → ℚ} {a : ℚ} {i : ℕ}
    (h : i ∈ l) : l.foldl (fun a i => min a (f i)) a ≤ f i := by
  induction l generalizing a with
  | nil => cases h
  | cons x xs ih =>
    rcases List.mem_cons.1 h with rfl | hx
    · simp only [List.foldl_cons]
      exact le_trans foldl_min_init_le (min_le_right a (f i))
    · exact ih hx

theorem minOver_le {n i : ℕ} (f : ℕ → ℚ) (h : i < n) : minOver n f ≤ f i :=
  foldl_min_le (List.mem_range.2 h)

theorem le_minOver {n : ℕ} {f : ℕ → ℚ} {c : ℚ} (h0 : c ≤ f 0)
    (h : ∀ i < n, c ≤ f i) : c ≤ minOver n f := by
  unfold minOver
  have : ∀ l : List ℕ, (∀ i ∈ l, c ≤ f i) → ∀ a, c ≤ a →
      c ≤ l.foldl (fun a i => min a (f i)) a := by
    intro l
    induction l with
    | nil => intro _ a ha; exact ha
    | cons x xs ih =>
      intro hm a ha
      exact ih (fun i hi => hm i (List.mem_cons_of_mem _ hi)) _
        (le_min ha (hm x (List.mem_cons_self _ _)))
  exact this _ (fun i hi => h i (List.mem_range.1 hi)) _ h0

theorem minOver_mem {n : ℕ} (f : ℕ → ℚ) (_hn : 0 < n) :
    ∃ i, (i < n ∨ i = 0) ∧ minOver n f = f i := by
  unfold minOver
  have key : ∀ l : List ℕ, ∀ a : ℚ,
      (∃ i ∈ l, l.foldl (fun a i => min a (f i)) a = f i) ∨
        l.foldl (fun a i => min a (f i)) a = a := by
    intro l
    induction l with
    | nil => intro a; exact Or.inr rfl
    | cons x xs ih =>
      intro a
      simp only [List.foldl_cons]
      rcases ih (min a (f x)) with ⟨i, hi, hfold⟩ | hfold
      · exact Or.inl ⟨i, List.mem_cons_of_mem _ hi, hfold⟩
      · rcases le_total a (f x) with hle | hle
        · rw [hfold, min_eq_left hle]; exact Or.inr rfl
        · rw [hfold, min_eq_right hle]
          exact Or.inl ⟨x, List.mem_cons_self _ _, rfl⟩
  rcases key (List.range n) (f 0) with ⟨i, hi, hfold⟩ | hfold
  · exact ⟨i, Or.inl (List.mem_range.1 hi), hfold⟩
  · exact ⟨0, Or.inr rfl, hfold⟩

theorem minOver_mem_of_pos {n : ℕ} (f : ℕ → ℚ) (hn : 0 < n) :
    ∃ i < n, minOver n f = f i := by
  rcases minOver_mem f hn with ⟨i, hi | hi, hfold⟩
  · exact ⟨i, hi, hfold⟩
  · exact ⟨0, hn, by rw [hfold, hi]⟩

/-- Loader output for one instance, modelled from the spec (§6): the
per-job operation counts and the operation × machine duration matrix.
`procTimes0 i m` is the duration of operation `i` on machine `m`, `0` when
the pair is ineligible (and outside the instance dimensions). -/
structure Inst where
  numJobs : ℕ
  numMas : ℕ
  numsOpe : ℕ → ℕ
  procTimes0 : ℕ → ℕ → ℚ

/-- Modelled from the spec: the loader's `num_ope_biases` array, the id of
the first operation of each job (jobs occupy consecutive operation-id
ranges). -/
def biases (I : Inst) (j : ℕ) : ℕ := ∑ t ∈ Finset.range j, I.numsOpe t

/-- Total number of operations of the instance (`nums_opes` entry). -/
def numOpes (I : Inst) : ℕ := biases I I.numJobs

/-- The id of the last operation of each job (`end_ope_biases`). -/
def endBias (I : Inst) (j : ℕ) : ℕ := biases I j + I.numsOpe j - 1

/-- Modelled from the spec: the loader's `opes_appertain` array mapping an
operation id to the job it belongs to (`numJobs` outside the range). -/
def appertain (I : Inst) (i : ℕ) : ℕ :=
  (List.range I.numJobs).countP (fun j => decide (biases I (j + 1) ≤ i))

/-- Modelled from the spec: the loader's operation × machine eligibility
adjacency `ope_ma_adj`; a pair is eligible exactly when its duration is
positive. -/
def adj0 (I : Inst) (i m : ℕ) : ℕ := if 0 < I.procTimes0 i m then 1 else 0

/-- Modelled from the spec: the loader's cumulative-path adjacency
`cal_cumul_adj`, with `A0 p o = 1` exactly when `p` precedes `o` inside the
same job; multiplying a row vector by it accumulates the values of all
same-job predecessors. -/
def A0 (I : Inst) (p o : ℕ) : ℚ :=
  if appertain I p = appertain I o ∧ p < o ∧ o < numOpes I then 1 else 0

/-- Well-formedness of a loaded instance, modelled from the spec: at least
one job, no empty job, nonnegative durations that vanish outside the
instance dimensions, and every operation eligible on at least one machine
(§7 "malformed instance" exclusion). -/
def WF (I : Inst) : Prop :=
  0 < I.numJobs ∧
  (∀ j < I.numJobs, 0 < I.numsOpe j) ∧
  (∀ i m, 0 ≤ I.procTimes0 i m) ∧
  (∀ i < numOpes I, ∃ m < I.numMas, 0 < I.procTimes0 i m) ∧
  (∀ i m, numOpes I ≤ i ∨ I.numMas ≤ m → I.procTimes0 i m = 0)

theorem biases_mono (I : Inst) {j j' : ℕ} (h : j ≤ j') :
    biases I j ≤ biases I j' := by
  unfold biases
  exact Finset.sum_le_sum_of_subset (Finset.range_subset.2 h)

theorem biases_succ (I : Inst) (j : ℕ) :
    biases I (j + 1) = biases I j + I.numsOpe j := by
  unfold biases; rw [Finset.sum_range_succ]

theorem endBias_succ (I : Inst) {j : ℕ} (hj : 0 < I.numsOpe j) :
    endBias I j + 1 = biases I (j + 1) := by
  unfold endBias
  rw [biases_succ]
  omega

theorem biases_le_numOpes (I : Inst) {j : ℕ} (h : j ≤ I.numJobs) :
    biases I j ≤ numOpes I := biases_mono I h

theorem countP_lt_range (j n : ℕ) :
    (List.range n).countP (fun t => decide (t < j)) = min j n := by
  induction n with
  | zero => simp
  | succ n ih =>
    rw [List.range_succ, List.countP_append, ih]
    by_cases h : n < j <;>
      simp only [List.countP_cons, List.countP_nil, h, decide_eq_true_eq,
        if_true, if_false, Nat.min_def] <;>
      split_ifs <;> omega

theorem appertain_eq (I : Inst) (_hwf : WF I) {j i : ℕ} (hj : j < I.numJobs)
    (h1 : biases I j ≤ i) (h2 : i < biases I (j + 1)) : appertain I i = j := by
  unfold appertain
  have hcount : ∀ t, t ∈ List.range I.numJobs →
      ((biases I (t + 1) ≤ i) ↔ t < j) := by
    intro t ht
    constructor
    · intro hle
      by_contra hcon
      push_neg at hcon
      exact absurd (le_trans (biases_mono I (by omega : j + 1 ≤ t + 1)) hle)
        (by omega)
    · intro hlt
      exact le_trans (biases_mono I (by omega : t + 1 ≤ j)) h1
  calc (List.range I.numJobs).countP (fun t => decide (biases I (t + 1) ≤ i))
      = (List.range I.numJobs).countP (fun t => decide (t < j)) := by
        apply List.countP_congr
        intro t ht
        simp only [decide_eq_true_eq]
        exact hcount t ht
    _ = j := by
        rw [countP_lt_range]
        omega

theorem appertain_inv (I : Inst) (hwf : WF I) {i : ℕ} (hi : i < numOpes I) :
    appertain I i < I.numJobs ∧ biases I (appertain I i) ≤ i ∧
      i < biases I (appertain I i + 1) := by
  obtain ⟨hJ, hOpe, _⟩ := hwf
  -- there is a job whose range contains i
  have hex : ∃ j < I.numJobs, biases I j ≤ i ∧ i < biases I (j + 1) := by
    by_contra hcon
    push_neg at hcon
    have : ∀ j ≤ I.numJobs, i < biases I j → False := by
      intro j
      induction j with
      | zero => intro _ h0; simp [biases] at h0
      | succ t ih =>
        intro hle hlt
        rcases lt_or_le i (biases I t) with hc | hc
        · exact ih (by omega) hc
        · exact absurd hlt (by have := hcon t (by omega) hc; omega)
    exact this I.numJobs le_rfl hi
  obtain ⟨j, hj, h1, h2⟩ := hex
  rw [appertain_eq I ⟨hJ, hOpe, ‹_›⟩ hj h1 h2]
  exact ⟨hj, h1, h2⟩

theorem appertain_ge (I : Inst) {i : ℕ} (hi : numOpes I ≤ i) :
    appertain I i = I.numJobs := by
  unfold appertain
  rw [List.countP_eq_length.2]
  · exact List.length_range _
  · intro t ht
    exact decide_eq_true
      (le_trans (le_trans (biases_mono I (List.mem_range.1 ht)) le_rfl) hi)

theorem appertain_lt (I : Inst) (hwf : WF I) {i : ℕ} (hi : i < numOpes I) :
    appertain I i < I.numJobs := (appertain_inv I hwf hi).1

theorem mem_job_iff (I : Inst) (hwf : WF I) {i : ℕ} (hi : i < numOpes I)
    {j : ℕ} (hj : j < I.numJobs) :
    appertain I i = j ↔ (biases I j ≤ i ∧ i ≤ endBias I j) := by
  have hOpe := hwf.2.1 j hj
  constructor
  · intro h
    obtain ⟨_, h1, h2⟩ := appertain_inv I hwf hi
    rw [h] at h1 h2
    refine ⟨h1, ?_⟩
    rw [← endBias_succ I hOpe] at h2
    omega
  · intro ⟨h1, h2⟩
    exact appertain_eq I hwf hj h1 (by rw [← endBias_succ I hOpe]; omega)

theorem endBias_lt_numOpes (I : Inst) (hwf : WF I) {j : ℕ}
    (hj : j < I.numJobs) : endBias I j < numOpes I := by
  have h1 := endBias_succ I (hwf.2.1 j hj)
  have h2 := biases_le_numOpes I (show j + 1 ≤ I.numJobs by omega)
  omega

theorem A0_last_row (I : Inst) (o : ℕ) : A0 I (numOpes I - 1) o = 0 := by
  unfold A0
  split
  · next h => omega
  · rfl

/-- One row of the source `schedules_batch` (status flag, allocated
machine, start time, end time).  The machine id is stored as a float in the
source and read back with `int(...)`; it is a natural here. -/
@[ext]
structure SchedEntry where
  status : ℚ
  mach : ℕ
  start : ℚ
  stop : ℚ
deriving DecidableEq

/-- One row of the source `machines_batch` (idle flag, available time,
cumulative busy time, id of the job being served).  The idle cell is `1.0`
or `0.0` in the source and is compared with `== 0`; it is a `Bool` here
(`true` = idle).  The job cell is a float in the source; a natural here. -/
@[ext]
structure MachEntry where
  idle : Bool
  avail : ℚ
  utilizT : ℚ
  jobRec : ℕ
deriving DecidableEq

/-- The dynamic part of the `EnvState` dataclass snapshot handed to the
decision maker (`state.update(...)` arguments).  The static fields of the
dataclass are unchanging copies of the loader output and are omitted.
`active` models membership of the slot in `batch_idxes`. -/
@[ext]
structure EnvState where
  active : Bool
  featStatus : ℕ → ℚ
  featNumMas : ℕ → ℚ
  featProc : ℕ → ℚ
  featUnsched : ℕ → ℚ
  featJobEnd : ℕ → ℚ
  featStart : ℕ → ℚ
  featMaNumOpes : ℕ → ℚ
  featMaAvail : ℕ → ℚ
  featMaUtiliz : ℕ → ℚ
  procTimes : ℕ → ℕ → ℚ
  opeMaAdj : ℕ → ℕ → ℕ
  maskJobProcing : ℕ → Bool
  maskJobFinish : ℕ → Bool
  maskMaProcing : ℕ → Bool
  opeStep : ℕ → ℕ
  time : ℚ

/-- The full mutable state of one batch slot of `FJSPEnv`.  The six
`feat…` fields are the rows 0–5 of `feat_opes_batch`, the three `featMa…`
fields the rows 0–2 of `feat_mas_batch`.  The `old…` fields are the deep
copies taken at the end of `__init__` for `reset`. -/
@[ext]
structure Env where
  inst : Inst
  procTimes : ℕ → ℕ → ℚ
  opeMaAdj : ℕ → ℕ → ℕ
  calCumulAdj : ℕ → ℕ → ℚ
  featStatus : ℕ → ℚ
  featNumMas : ℕ → ℚ
  featProc : ℕ → ℚ
  featUnsched : ℕ → ℚ
  featJobEnd : ℕ → ℚ
  featStart : ℕ → ℚ
  featMaNumOpes : ℕ → ℚ
  featMaAvail : ℕ → ℚ
  featMaUtiliz : ℕ → ℚ
  maskJobProcing : ℕ → Bool
  maskJobFinish : ℕ → Bool
  maskMaProcing : ℕ → Bool
  opeStep : ℕ → ℕ
  time : ℚ
  nCount : ℕ
  sched : ℕ → SchedEntry
  machines : ℕ → MachEntry
  makespan : ℚ
  doneB : Bool
  rewardB : ℚ
  active : Bool
  snap : EnvState
  oldProcTimes : ℕ → ℕ → ℚ
  oldOpeMaAdj : ℕ → ℕ → ℕ
  oldCalCumulAdj : ℕ → ℕ → ℚ
  oldFeatStatus : ℕ → ℚ
  oldFeatNumMas : ℕ → ℚ
  oldFeatProc : ℕ → ℚ
  oldFeatUnsched : ℕ → ℚ
  oldFeatJobEnd : ℕ → ℚ
  oldFeatStart : ℕ → ℚ
  oldFeatMaNumOpes : ℕ → ℚ
  oldFeatMaAvail : ℕ → ℚ
  oldFeatMaUtiliz : ℕ → ℚ
  oldSnap : EnvState

/-- Snapshot of the dynamic fields, the embedding of `state.update(...)`
(and of the `EnvState(...)` construction in `__init__`). -/
def snapOf (e : Env) (act : Bool) : EnvState where
  active := act
  featStatus := e.featStatus
  featNumMas := e.featNumMas
  featProc := e.featProc
  featUnsched := e.featUnsched
  featJobEnd := e.featJobEnd
  featStart := e.featStart
  featMaNumOpes := e.featMaNumOpes
  featMaAvail := e.featMaAvail
  featMaUtiliz := e.featMaUtiliz
  procTimes := e.procTimes
  opeMaAdj := e.opeMaAdj
  maskJobProcing := e.maskJobProcing
  maskJobFinish := e.maskJobFinish
  maskMaProcing := e.maskMaProcing
  opeStep := e.opeStep
  time := e.time

/-- Row 1 of `feat_opes_batch` at construction: number of neighboring
machines (`torch.count_nonzero(ope_ma_adj, dim=2)`). -/
def initFeatNumMas (I : Inst) (i : ℕ) : ℚ :=
  ((List.range I.numMas).countP (fun m => decide (adj0 I i m ≠ 0)) : ℕ)

/-- Row 2 of `feat_opes_batch` at construction: mean processing time over
the neighboring machines (`sum(proc_times).div(count + 1e-9)`). -/
def initFeatProc (I : Inst) (i : ℕ) : ℚ :=
  (∑ m ∈ Finset.range I.numMas, I.procTimes0 i m) / (initFeatNumMas I i + eps9)

/-- Row 3 of `feat_opes_batch` at construction: number of unscheduled
operations in the owning job (`convert_feat_job_2_ope(nums_ope, …)`). -/
def initFeatUnsched (I : Inst) (i : ℕ) : ℚ := (I.numsOpe (appertain I i) : ℚ)

/-- Row 5 of `feat_opes_batch` at construction: estimated start time,
`bmm(mean_proc_times, cal_cumul_adj)`. -/
def initFeatStart (I : Inst) (o : ℕ) : ℚ :=
  ∑ p ∈ Finset.range (numOpes I), initFeatProc I p * A0 I p o

/-- Row 4 of `feat_opes_batch` at construction: estimated completion time
of the owning job, `(start + proc)` gathered at the job's last operation
and broadcast back. -/
def initFeatJobEnd (I : Inst) (i : ℕ) : ℚ :=
  initFeatStart I (endBias I (appertain I i)) +
    initFeatProc I (endBias I (appertain I i))

/-- Row 0 of `feat_mas_batch` at construction: number of neighboring
operations (`torch.count_nonzero(ope_ma_adj, dim=1)`). -/
def initFeatMaNumOpes (I : Inst) (m : ℕ) : ℚ :=
  ((List.range (numOpes I)).countP (fun i => decide (adj0 I i m ≠ 0)) : ℕ)

/-- The state snapshot built at the end of `__init__`. -/
def initSnap (I : Inst) : EnvState where
  active := true
  featStatus := fun _ => 0
  featNumMas := initFeatNumMas I
  featProc := initFeatProc I
  featUnsched := initFeatUnsched I
  featJobEnd := initFeatJobEnd I
  featStart := initFeatStart I
  featMaNumOpes := initFeatMaNumOpes I
  featMaAvail := fun _ => 0
  featMaUtiliz := fun _ => 0
  procTimes := I.procTimes0
  opeMaAdj := adj0 I
  maskJobProcing := fun _ => false
  maskJobFinish := fun _ => false
  maskMaProcing := fun _ => false
  opeStep := biases I
  time := 0

/-- The embedding of `FJSPEnv.__init__` for one batch slot: the freshly
constructed environment, including the deep copies retained for `reset`.
The source has no `reward_batch` attribute before the first `step`; the
field is initialized to `0` here. -/
def initEnv (I : Inst) : Env where
  inst := I
  procTimes := I.procTimes0
  opeMaAdj := adj0 I
  calCumulAdj := A0 I
  featStatus := fun _ => 0
  featNumMas := initFeatNumMas I
  featProc := initFeatProc I
  featUnsched := initFeatUnsched I
  featJobEnd := initFeatJobEnd I
  featStart := initFeatStart I
  featMaNumOpes := initFeatMaNumOpes I
  featMaAvail := fun _ => 0
  featMaUtiliz := fun _ => 0
  maskJobProcing := fun _ => false
  maskJobFinish := fun _ => false
  maskMaProcing := fun _ => false
  opeStep := biases I
  time := 0
  nCount := 0
  sched := fun i => ⟨0, 0, initFeatStart I i, initFeatStart I i + initFeatProc I i⟩
  machines := fun _ => ⟨true, 0, 0, 0⟩
  makespan := maxOver (numOpes I) (initFeatJobEnd I)
  doneB := (List.range I.numJobs).all (fun _ => false)
  rewardB := 0
  active := true
  snap := initSnap I
  oldProcTimes := I.procTimes0
  oldOpeMaAdj := adj0 I
  oldCalCumulAdj := A0 I
  oldFeatStatus := fun _ => 0
  oldFeatNumMas := initFeatNumMas I
  oldFeatProc := initFeatProc I
  oldFeatUnsched := initFeatUnsched I
  oldFeatJobEnd := initFeatJobEnd I
  oldFeatStart := initFeatStart I
  oldFeatMaNumOpes := initFeatMaNumOpes I
  oldFeatMaAvail := fun _ => 0
  oldFeatMaUtiliz := fun _ => 0
  oldSnap := initSnap I

@[simp] theorem initEnv_inst (I : Inst) : (initEnv I).inst = I := rfl

@[simp] theorem initEnv_opeStep (I : Inst) :
    (initEnv I).opeStep = biases I := rfl

@[simp] theorem initEnv_featProc (I : Inst) :
    (initEnv I).featProc = initFeatProc I := rfl

/-- Decisions handed to `step`: (operation id, machine id, job id), one
column of the `actions` tensor. -/
abbrev Action := ℕ × ℕ × ℕ

/-- The adjacency after the scheduling phase: the row of the chosen
operation is pruned to the chosen machine (`remain_ope_ma_adj`
assignment). -/
def adjStep (e : Env) (op ma : ℕ) : ℕ → ℕ → ℕ :=
  fun i m => if i = op then (if m = ma then 1 else 0) else e.opeMaAdj i m

/-- The processing-time matrix after `proc_times_batch *= ope_ma_adj_batch`. -/
def procStep (e : Env) (op ma : ℕ) : ℕ → ℕ → ℚ :=
  fun i m => e.procTimes i m * (adjStep e op ma i m : ℚ)

/-- The duration read back for the chosen pair
(`proc_times_batch[batch_idxes, opes, mas]` after the mask). -/
def procChosen (e : Env) (op ma : ℕ) : ℚ := procStep e op ma op ma

/-- Row 0 of `feat_opes_batch` after the scheduling phase. -/
def statusStep (e : Env) (op : ℕ) : ℕ → ℚ :=
  fun i => if i = op then 1 else e.featStatus i

/-- Row 1 of `feat_opes_batch` after the scheduling phase. -/
def numMasStep (e : Env) (op : ℕ) : ℕ → ℚ :=
  fun i => if i = op then 1 else e.featNumMas i

/-- Row 2 of `feat_opes_batch` after the scheduling phase: the actual
duration replaces the mean at the chosen operation. -/
def featProcStep (e : Env) (op ma : ℕ) : ℕ → ℚ :=
  fun i => if i = op then procChosen e op ma else e.featProc i

/-- Index of the cumulative-adjacency row zeroed by the scheduling phase:
`where(opes - 1 < num_ope_biases[jobs], num_opes - 1, opes - 1)` (the
`num_opes - 1` row is identically zero, so that branch is a no-op). -/
def lastOpe (e : Env) (op jb : ℕ) : ℕ :=
  if op ≤ biases e.inst jb then numOpes e.inst - 1 else op - 1

/-- The cumulative adjacency after zeroing row `lastOpe`. -/
def calStep (e : Env) (op jb : ℕ) : ℕ → ℕ → ℚ :=
  fun p o => if p = lastOpe e op jb then 0 else e.calCumulAdj p o

/-- Row 3 of `feat_opes_batch` after the decrement loop over the job's
operation range. -/
def unschedStep (e : Env) (jb : ℕ) : ℕ → ℚ :=
  fun i => if biases e.inst jb ≤ i ∧ i ≤ endBias e.inst jb then
    e.featUnsched i - 1 else e.featUnsched i

/-- Row 5 of `feat_opes_batch` after the point write
`feat_opes_batch[batch_idxes, 5, opes] = time` (before the estimate
recomputation). -/
def startASt (e : Env) (op : ℕ) : ℕ → ℚ :=
  fun i => if i = op then e.time else e.featStart i

/-- The `start_times` vector of the scheduling phase (`feat[5] * status`). -/
def startTimesSt (e : Env) (op : ℕ) : ℕ → ℚ :=
  fun i => startASt e op i * statusStep e op i

/-- The `estimate_times` vector: `bmm(start_times + proc, cal_cumul_adj) *
un_scheduled`. -/
def estimatesSt (e : Env) (op ma jb : ℕ) : ℕ → ℚ :=
  fun o => (∑ p ∈ Finset.range (numOpes e.inst),
      (startTimesSt e op p + featProcStep e op ma p) * calStep e op jb p o) *
    (1 - statusStep e op o)

/-- Row 5 of `feat_opes_batch` after the estimate recomputation. -/
def featStartStep (e : Env) (op ma jb : ℕ) : ℕ → ℚ :=
  fun o => startTimesSt e op o + estimatesSt e op ma jb o

/-- Row 4 of `feat_opes_batch` after the scheduling phase. -/
def featJobEndStep (e : Env) (op ma jb : ℕ) : ℕ → ℚ :=
  fun i => featStartStep e op ma jb (endBias e.inst (appertain e.inst i)) +
    featProcStep e op ma (endBias e.inst (appertain e.inst i))

/-- The schedule rows after the scheduling phase: status/machine written at
the chosen operation, start/end columns rewritten for every operation from
rows 5 and 2 of `feat_opes_batch`. -/
def schedStep (e : Env) (op ma jb : ℕ) : ℕ → SchedEntry :=
  fun i =>
    { status := if i = op then 1 else (e.sched i).status
      mach := if i = op then ma else (e.sched i).mach
      start := featStartStep e op ma jb i
      stop := featStartStep e op ma jb i + featProcStep e op ma i }

/-- The machine rows after the scheduling phase: the chosen machine is
marked busy, its available time set to `time + proc`, its busy time
accumulated, and the serving job recorded. -/
def machinesStep (e : Env) (op ma jb : ℕ) : ℕ → MachEntry :=
  fun m =>
    if m = ma then
      ⟨false, e.time + procChosen e op ma,
        (e.machines m).utilizT + procChosen e op ma, jb⟩
    else e.machines m

theorem schedStep_status (e : Env) (op ma jb i : ℕ) :
    (schedStep e op ma jb i).status =
      if i = op then 1 else (e.sched i).status := rfl

theorem schedStep_mach (e : Env) (op ma jb i : ℕ) :
    (schedStep e op ma jb i).mach =
      if i = op then ma else (e.sched i).mach := rfl

theorem schedStep_start (e : Env) (op ma jb i : ℕ) :
    (schedStep e op ma jb i).start = featStartStep e op ma jb i := rfl

theorem schedStep_stop (e : Env) (op ma jb i : ℕ) :
    (schedStep e op ma jb i).stop =
      featStartStep e op ma jb i + featProcStep e op ma i := rfl

theorem machinesStep_idle (e : Env) (op ma jb m : ℕ) :
    (machinesStep e op ma jb m).idle =
      if m = ma then false else (e.machines m).idle := by
  unfold machinesStep
  split <;> rfl

theorem machinesStep_avail (e : Env) (op ma jb m : ℕ) :
    (machinesStep e op ma jb m).avail =
      if m = ma then e.time + procChosen e op ma
      else (e.machines m).avail := by
  unfold machinesStep
  split <;> rfl

theorem machinesStep_utilizT (e : Env) (op ma jb m : ℕ) :
    (machinesStep e op ma jb m).utilizT =
      if m = ma then (e.machines m).utilizT + procChosen e op ma
      else (e.machines m).utilizT := by
  unfold machinesStep
  split <;> rfl

theorem machinesStep_jobRec (e : Env) (op ma jb m : ℕ) :
    (machinesStep e op ma jb m).jobRec =
      if m = ma then jb else (e.machines m).jobRec := by
  unfold machinesStep
  split <;> rfl

/-- Row 0 of `feat_mas_batch` after the scheduling phase. -/
def featMaNumOpesStep (e : Env) (op ma : ℕ) : ℕ → ℚ :=
  fun m => ((List.range (numOpes e.inst)).countP
    (fun i => decide (adjStep e op ma i m ≠ 0)) : ℕ)

/-- Row 1 of `feat_mas_batch` after the scheduling phase. -/
def featMaAvailStep (e : Env) (op ma : ℕ) : ℕ → ℚ :=
  fun m => if m = ma then e.time + procChosen e op ma else e.featMaAvail m

/-- Row 2 of `feat_mas_batch` after the scheduling phase:
`min(busy, time) / (time + 1e-9)`. -/
def featMaUtilizStep (e : Env) (op ma jb : ℕ) : ℕ → ℚ :=
  fun m => min ((machinesStep e op ma jb m).utilizT) e.time / (e.time + eps9)

/-- The per-job operation pointer after the scheduling phase. -/
def opeStepStep (e : Env) (jb : ℕ) : ℕ → ℕ :=
  fun j => if j = jb then e.opeStep j + 1 else e.opeStep j

/-- The job in-process mask after the scheduling phase. -/
def maskJPStep (e : Env) (jb : ℕ) : ℕ → Bool :=
  fun j => if j = jb then true else e.maskJobProcing j

/-- The machine in-process mask after the scheduling phase. -/
def maskMPStep (e : Env) (ma : ℕ) : ℕ → Bool :=
  fun m => if m = ma then true else e.maskMaProcing m

/-- The job finished mask after the scheduling phase
(`where(ope_step == end_ope_biases + 1, True, old)`). -/
def maskJFStep (e : Env) (jb : ℕ) : ℕ → Bool :=
  fun j => if opeStepStep e jb j = endBias e.inst j + 1 then true
    else e.maskJobFinish j

/-- The completion flag after the scheduling phase
(`mask_job_finish_batch.all(dim=1)`). -/
def doneStep (e : Env) (jb : ℕ) : Bool :=
  (List.range e.inst.numJobs).all (maskJFStep e jb)

/-- The new makespan after the scheduling phase
(`torch.max(feat_opes_batch[:, 4, :], dim=1)`). -/
def maxValStep (e : Env) (op ma jb : ℕ) : ℚ :=
  maxOver (numOpes e.inst) (featJobEndStep e op ma jb)

/-- The scheduling phase of `FJSPEnv.step` (lines before the time-advance
loop), for one batch slot. -/
def stepSched (e : Env) (a : Action) : Env :=
  { e with
    nCount := e.nCount + 1
    opeMaAdj := adjStep e a.1 a.2.1
    procTimes := procStep e a.1 a.2.1
    featStatus := statusStep e a.1
    featNumMas := numMasStep e a.1
    featProc := featProcStep e a.1 a.2.1
    calCumulAdj := calStep e a.1 a.2.2
    featUnsched := unschedStep e a.2.2
    featStart := featStartStep e a.1 a.2.1 a.2.2
    featJobEnd := featJobEndStep e a.1 a.2.1 a.2.2
    sched := schedStep e a.1 a.2.1 a.2.2
    machines := machinesStep e a.1 a.2.1 a.2.2
    featMaNumOpes := featMaNumOpesStep e a.1 a.2.1
    featMaAvail := featMaAvailStep e a.1 a.2.1
    featMaUtiliz := featMaUtilizStep e a.1 a.2.1 a.2.2
    opeStep := opeStepStep e a.2.2
    maskJobProcing := maskJPStep e a.2.2
    maskMaProcing := maskMPStep e a.2.1
    maskJobFinish := maskJFStep e a.2.2
    doneB := doneStep e a.2.2
    rewardB := e.makespan - maxValStep e a.1 a.2.1 a.2.2
    makespan := maxValStep e a.1 a.2.1 a.2.2 }

@[simp] theorem stepSched_inst (e : Env) (a : Action) : (stepSched e a).inst = e.inst := rfl

@[simp] theorem stepSched_procTimes (e : Env) (a : Action) : (stepSched e a).procTimes = procStep e a.1 a.2.1 := rfl

@[simp] theorem stepSched_opeMaAdj (e : Env) (a : Action) : (stepSched e a).opeMaAdj = adjStep e a.1 a.2.1 := rfl

@[simp] theorem stepSched_calCumulAdj (e : Env) (a : Action) : (stepSched e a).calCumulAdj = calStep e a.1 a.2.2 := rfl

@[simp] theorem stepSched_featStatus (e : Env) (a : Action) : (stepSched e a).featStatus = statusStep e a.1 := rfl

@[simp] theorem stepSched_featProc (e : Env) (a : Action) : (stepSched e a).featProc = featProcStep e a.1 a.2.1 := rfl

@[simp] theorem stepSched_featStart (e : Env) (a : Action) : (stepSched e a).featStart = featStartStep e a.1 a.2.1 a.2.2 := rfl

@[simp] theorem stepSched_featJobEnd (e : Env) (a : Action) : (stepSched e a).featJobEnd = featJobEndStep e a.1 a.2.1 a.2.2 := rfl

@[simp] theorem stepSched_sched (e : Env) (a : Action) : (stepSched e a).sched = schedStep e a.1 a.2.1 a.2.2 := rfl

@[simp] theorem stepSched_machines (e : Env) (a : Action) : (stepSched e a).machines = machinesStep e a.1 a.2.1 a.2.2 := rfl

@[simp] theorem stepSched_opeStep (e : Env) (a : Action) : (stepSched e a).opeStep = opeStepStep e a.2.2 := rfl

@[simp] theorem stepSched_maskJobProcing (e : Env) (a : Action) : (stepSched e a).maskJobProcing = maskJPStep e a.2.2 := rfl

@[simp] theorem stepSched_maskMaProcing (e : Env) (a : Action) : (stepSched e a).maskMaProcing = maskMPStep e a.2.1 := rfl

@[simp] theorem stepSched_maskJobFinish (e : Env) (a : Action) : (stepSched e a).maskJobFinish = maskJFStep e a.2.2 := rfl

@[simp] theorem stepSched_doneB (e : Env) (a : Action) : (stepSched e a).doneB = doneStep e a.2.2 := rfl

@[simp] theorem stepSched_time (e : Env) (a : Action) : (stepSched e a).time = e.time := rfl

@[simp] theorem stepSched_nCount (e : Env) (a : Action) : (stepSched e a).nCount = e.nCount + 1 := rfl

@[simp] theorem stepSched_makespan (e : Env) (a : Action) : (stepSched e a).makespan = maxValStep e a.1 a.2.1 a.2.2 := rfl

@[simp] theorem stepSched_rewardB (e : Env) (a : Action) : (stepSched e a).rewardB = e.makespan - maxValStep e a.1 a.2.1 a.2.2 := rfl

/-- The clamped pointer used by `if_no_eligible`
(`where(ope_step > end_ope_biases, end_ope_biases, ope_step)`). -/
def clampStep (e : Env) (j : ℕ) : ℕ :=
  if e.opeStep j > endBias e.inst j then endBias e.inst j else e.opeStep j

/-- The embedding of `FJSPEnv.if_no_eligible` for one slot: the sum of the
durations of all currently eligible (pending operation, idle machine)
pairs; zero means the slot is stalled. -/
def ifNoEligible (e : Env) : ℚ :=
  ∑ j ∈ Finset.range e.inst.numJobs, ∑ m ∈ Finset.range e.inst.numMas,
    if !e.maskMaProcing m && !(e.maskJobProcing j || e.maskJobFinish j) then
      e.procTimes (clampStep e j) m
    else 0

/-- The `flag_need_trans` bit of `next_time`. -/
def needTrans (e : Env) (flag : ℚ) : Bool := decide (flag = 0) && !e.doneB

/-- The global sentinel `torch.max(feat_opes_batch[:, 4, :]) + 1.0` of
`next_time` (taken over this slot; on reachable states the sentinel never
wins the minimum, so the batch-wide maximum behaves identically). -/
def sentinelM (e : Env) : ℚ := maxOver (numOpes e.inst) e.featJobEnd + 1

/-- The `b` vector of `next_time`: machine available times, with entries
not beyond the current clock replaced by the sentinel. -/
def bOf (e : Env) : ℕ → ℚ :=
  fun m => if (e.machines m).avail > e.time then (e.machines m).avail
    else sentinelM e

/-- The `c` value of `next_time`: the candidate next clock value. -/
def cOf (e : Env) : ℚ := minOver e.inst.numMas (bOf e)

/-- The `d` mask of `next_time`: busy machines that complete at the new
clock value, in slots that need the transition. -/
def dOf (e : Env) (flag : ℚ) : ℕ → Bool :=
  fun m => decide ((e.machines m).avail = cOf e) &&
    decide ((e.machines m).idle = false) && needTrans e flag

/-- The clock after `next_time` (`where(flag_need_trans, c, time)`). -/
def timeNext (e : Env) (flag : ℚ) : ℚ :=
  if needTrans e flag then cOf e else e.time

/-- The machine rows after `next_time`: machines in `d` are freed. -/
def machinesNext (e : Env) (flag : ℚ) : ℕ → MachEntry :=
  fun m => if dOf e flag m then { e.machines m with idle := true }
    else e.machines m

/-- Row 2 of `feat_mas_batch` after `next_time`:
`min(busy, time) / (time + 1e-5)`. -/
def featMaUtilizNext (e : Env) (flag : ℚ) : ℕ → ℚ :=
  fun m => min ((machinesNext e flag m).utilizT) (timeNext e flag) /
    (timeNext e flag + eps5)

/-- The job in-process mask after `next_time`: jobs recorded on freed
machines are released. -/
def maskJPNext (e : Env) (flag : ℚ) : ℕ → Bool :=
  fun j => if (List.range e.inst.numMas).any
      (fun m => dOf e flag m && decide ((e.machines m).jobRec = j)) then false
    else e.maskJobProcing j

/-- The machine in-process mask after `next_time`. -/
def maskMPNext (e : Env) (flag : ℚ) : ℕ → Bool :=
  fun m => if dOf e flag m then false else e.maskMaProcing m

/-- The job finished mask refresh of `next_time`. -/
def maskJFNext (e : Env) : ℕ → Bool :=
  fun j => if e.opeStep j = endBias e.inst j + 1 then true
    else e.maskJobFinish j

/-- The embedding of `FJSPEnv.next_time` for one slot. -/
def nextTime (e : Env) (flag : ℚ) : Env :=
  { e with
    time := timeNext e flag
    machines := machinesNext e flag
    featMaUtiliz := featMaUtilizNext e flag
    maskJobProcing := maskJPNext e flag
    maskMaProcing := maskMPNext e flag
    maskJobFinish := maskJFNext e }

@[simp] theorem nextTime_inst (e : Env) (f : ℚ) : (nextTime e f).inst = e.inst := rfl

@[simp] theorem nextTime_time (e : Env) (f : ℚ) : (nextTime e f).time = timeNext e f := rfl

@[simp] theorem nextTime_machines (e : Env) (f : ℚ) : (nextTime e f).machines = machinesNext e f := rfl

@[simp] theorem nextTime_maskJobProcing (e : Env) (f : ℚ) : (nextTime e f).maskJobProcing = maskJPNext e f := rfl

@[simp] theorem nextTime_maskMaProcing (e : Env) (f : ℚ) : (nextTime e f).maskMaProcing = maskMPNext e f := rfl

@[simp] theorem nextTime_maskJobFinish (e : Env) (f : ℚ) : (nextTime e f).maskJobFinish = maskJFNext e := rfl

@[simp] theorem nextTime_featMaUtiliz (e : Env) (f : ℚ) : (nextTime e f).featMaUtiliz = featMaUtilizNext e f := rfl

@[simp] theorem nextTime_opeStep (e : Env) (f : ℚ) : (nextTime e f).opeStep = e.opeStep := rfl

@[simp] theorem nextTime_sched (e : Env) (f : ℚ) : (nextTime e f).sched = e.sched := rfl

@[simp] theorem nextTime_featStart (e : Env) (f : ℚ) : (nextTime e f).featStart = e.featStart := rfl

@[simp] theorem nextTime_featProc (e : Env) (f : ℚ) : (nextTime e f).featProc = e.featProc := rfl

@[simp] theorem nextTime_featJobEnd (e : Env) (f : ℚ) : (nextTime e f).featJobEnd = e.featJobEnd := rfl

@[simp] theorem nextTime_procTimes (e : Env) (f : ℚ) : (nextTime e f).procTimes = e.procTimes := rfl

@[simp] theorem nextTime_doneB (e : Env) (f : ℚ) : (nextTime e f).doneB = e.doneB := rfl

@[simp] theorem nextTime_makespan (e : Env) (f : ℚ) : (nextTime e f).makespan = e.makespan := rfl

@[simp] theorem nextTime_rewardB (e : Env) (f : ℚ) : (nextTime e f).rewardB = e.rewardB := rfl

@[simp] theorem nextTime_nCount (e : Env) (f : ℚ) : (nextTime e f).nCount = e.nCount := rfl

/-- The continuation condition of the time-advance `while` loop in `step`
(for one slot: the slot is stalled and not done). -/
def stallGuard (e : Env) : Bool := decide (ifNoEligible e = 0) && !e.doneB

/-- The time-advance `while` loop of `step`, with explicit fuel.  `step`
runs it with fuel `numMas`; the termination-bound theorem below shows this
fuel always suffices on reachable states. -/
def advanceLoop : ℕ → Env → Env
  | 0, e => e
  | n + 1, e =>
    if stallGuard e then advanceLoop n (nextTime e (ifNoEligible e)) else e

/-- The embedding of `FJSPEnv.step` for one slot: scheduling phase,
time-advance loop, active-set update (`mask_finish = (N+1) <= nums_opes`)
and state snapshot. -/
def step (e : Env) (a : Action) : Env :=
  let e2 := advanceLoop e.inst.numMas (stepSched e a)
  let act := decide (e2.nCount + 1 ≤ numOpes e2.inst)
  { e2 with active := act, snap := snapOf e2 act }

/-- The embedding of `FJSPEnv.reset`: dynamic state is restored from the
deep copies retained at construction (`reward_batch` is not restored by the
source and keeps its last value). -/
def reset (e : Env) : Env :=
  { e with
    procTimes := e.oldProcTimes
    opeMaAdj := e.oldOpeMaAdj
    calCumulAdj := e.oldCalCumulAdj
    featStatus := e.oldFeatStatus
    featNumMas := e.oldFeatNumMas
    featProc := e.oldFeatProc
    featUnsched := e.oldFeatUnsched
    featJobEnd := e.oldFeatJobEnd
    featStart := e.oldFeatStart
    featMaNumOpes := e.oldFeatMaNumOpes
    featMaAvail := e.oldFeatMaAvail
    featMaUtiliz := e.oldFeatMaUtiliz
    snap := e.oldSnap
    active := true
    time := 0
    nCount := 0
    opeStep := biases e.inst
    maskJobProcing := fun _ => false
    maskJobFinish := fun _ => false
    maskMaProcing := fun _ => false
    sched := fun i => ⟨0, 0, e.oldFeatStart i,
      e.oldFeatStart i + e.oldFeatProc i⟩
    machines := fun _ => ⟨true, 0, 0, 0⟩
    makespan := maxOver (numOpes e.inst) e.oldFeatJobEnd
    doneB := (List.range e.inst.numJobs).all (fun _ => false) }

/-- One external call to the environment: `some a` is `step(a)`, `none` is
a bare `next_time(if_no_eligible())` round. -/
abbrev Call := Option Action

/-- Folding a sequence of external calls over the environment. -/
def runCalls (e : Env) : List Call → Env
  | [] => e
  | some a :: rest => runCalls (step e a) rest
  | none :: rest => runCalls (nextTime e (ifNoEligible e)) rest

/-- The list of per-round rewards (`reward_batch` values) returned by the
`step` calls of a call sequence. -/
def rewardsOf (e : Env) : List Call → List ℚ
  | [] => []
  | some a :: rest => (step e a).rewardB :: rewardsOf (step e a) rest
  | none :: rest => rewardsOf (nextTime e (ifNoEligible e)) rest

/-- A legal decision (spec glossary "eligible pair"): the operation is its
job's next pending one, the job is neither in-process nor finished, the
machine is idle and has positive duration for the operation in the current
processing-time matrix. -/
def Legal (e : Env) (a : Action) : Prop :=
  a.2.2 < e.inst.numJobs ∧ a.2.1 < e.inst.numMas ∧ a.1 = e.opeStep a.2.2 ∧
    e.maskJobProcing a.2.2 = false ∧ e.maskJobFinish a.2.2 = false ∧
    e.maskMaProcing a.2.1 = false ∧ 0 < e.procTimes a.1 a.2.1

instance (e : Env) (a : Action) : Decidable (Legal e a) := by
  unfold Legal; infer_instance

/-- States reachable from a freshly constructed well-formed environment by
legal `step` decisions and bare `next_time` rounds. -/
inductive Reach : Env → Prop where
  | init (I : Inst) (hwf : WF I) : Reach (initEnv I)
  | step {e : Env} (a : Action) (hr : Reach e) (hl : Legal e a) :
      Reach (step e a)
  | tick {e : Env} (hr : Reach e) : Reach (nextTime e (ifNoEligible e))

/-- The per-machine gantt rows built by `validate_gantt` (operation ids
appended in id order; every operation of the instance is appended to the
row of its recorded machine). -/
def ganttOps (e : Env) (m : ℕ) : List ℕ :=
  (List.range (numOpes e.inst)).filter (fun i => decide ((e.sched i).mach = m))

/-- The gantt row sorted by start time (`ma_gantt[i].sort(key=s[1])`). -/
def ganttSorted (e : Env) (m : ℕ) : List ℕ :=
  (ganttOps e m).mergeSort
    (fun i i2 => decide ((e.sched i).start ≤ (e.sched i2).start))

/-- The `flag_ma_overlap` contribution of machine `m`: the loop breaks at
the last entry, so exactly the first `len - 1` entries are compared with
their successors. -/
def flagMaOverlapM (e : Env) (m : ℕ) : ℕ :=
  (List.range ((ganttSorted e m).length - 1)).countP
    (fun t => decide ((e.sched ((ganttSorted e m).getD t 0)).stop >
      (e.sched ((ganttSorted e m).getD (t + 1) 0)).start))

/-- The `flag_proc_time` contribution of machine `m`: the same loop bound,
so the last entry of the sorted row is never duration-checked. -/
def flagProcTimeM (e : Env) (m : ℕ) : ℕ :=
  (List.range ((ganttSorted e m).length - 1)).countP
    (fun t => decide ((e.sched ((ganttSorted e m).getD t 0)).stop -
      (e.sched ((ganttSorted e m).getD t 0)).start ≠
        e.procTimes ((ganttSorted e m).getD t 0) m))

/-- Total `flag_ma_overlap` of the slot. -/
def flagMaOverlap (e : Env) : ℕ :=
  ∑ m ∈ Finset.range e.inst.numMas, flagMaOverlapM e m

/-- Total `flag_proc_time` of the slot. -/
def flagProcTime (e : Env) : ℕ :=
  ∑ m ∈ Finset.range e.inst.numMas, flagProcTimeM e m

/-- The `flag_ope_overlap` contribution of job `j` (jobs with at most one
operation are skipped). -/
def flagOpeOverlapJ (e : Env) (j : ℕ) : ℕ :=
  if e.inst.numsOpe j ≤ 1 then 0
  else (List.range (e.inst.numsOpe j - 1)).countP
    (fun t => decide ((e.sched (biases e.inst j + t)).stop >
      (e.sched (biases e.inst j + t + 1)).start))

/-- Total `flag_ope_overlap` of the slot. -/
def flagOpeOverlap (e : Env) : ℕ :=
  ∑ j ∈ Finset.range e.inst.numJobs, flagOpeOverlapJ e j

/-- The `flag_unscheduled` contribution of the slot: `1` unless the count
of schedule rows with status `1` equals the operation count. -/
def flagUnscheduled (e : Env) : ℕ :=
  if ((List.range (numOpes e.inst)).countP
      (fun i => decide ((e.sched i).status = 1))) = numOpes e.inst then 0
  else 1

/-- The embedding of `FJSPEnv.validate_gantt` for one slot: the pass/fail
verdict together with the (unmodified) schedule rows. -/
def validateGantt (e : Env) : Bool × (ℕ → SchedEntry) :=
  (decide (flagMaOverlap e + flagOpeOverlap e + flagProcTime e +
    flagUnscheduled e = 0), e.sched)

theorem app_mem (I : Inst) (hwf : WF I) {i : ℕ} (hi : i < numOpes I) :
    appertain I i < I.numJobs ∧ biases I (appertain I i) ≤ i ∧
      i ≤ endBias I (appertain I i) := by
  obtain ⟨hj, h1, h2⟩ := appertain_inv I hwf hi
  refine ⟨hj, h1, ?_⟩
  rw [← endBias_succ I (hwf.2.1 _ hj)] at h2
  omega

theorem app_endBias (I : Inst) (hwf : WF I) {j : ℕ} (hj : j < I.numJobs) :
    appertain I (endBias I j) = j := by
  have h1 := hwf.2.1 j hj
  have h2 := endBias_lt_numOpes I hwf hj
  exact (mem_job_iff I hwf h2 hj).2 ⟨by unfold endBias; omega, le_rfl⟩

theorem app_of_range (I : Inst) (hwf : WF I) {j i : ℕ} (hj : j < I.numJobs)
    (h1 : biases I j ≤ i) (h2 : i ≤ endBias I j) : appertain I i = j := by
  have hi : i < numOpes I := lt_of_le_of_lt h2 (endBias_lt_numOpes I hwf hj)
  exact (mem_job_iff I hwf hi hj).2 ⟨h1, h2⟩

/-- Initial mean processing times are nonnegative. -/
theorem initFeatProc_nonneg (I : Inst) (hwf : WF I) (i : ℕ) :
    0 ≤ initFeatProc I i := by
  unfold initFeatProc
  apply div_nonneg
  · exact Finset.sum_nonneg fun m _ => hwf.2.2.1 i m
  · have : (0 : ℚ) ≤ initFeatNumMas I i := by
      unfold initFeatNumMas; positivity
    have : (0 : ℚ) < eps9 := by norm_num [eps9]
    linarith

/-- The completion base of the running estimates: the end time of the last
scheduled operation of the job, `0` when the job has none. -/
def schedBase (e : Env) (j : ℕ) : ℚ :=
  if biases e.inst j < e.opeStep j then (e.sched (e.opeStep j - 1)).stop
  else 0

/-- The reachability invariant of one environment slot.  All clauses are
consequences of `__init__` preserved by legal `step` decisions and by
`next_time` rounds. -/
structure Inv (e : Env) : Prop where
  wf : WF e.inst
  step_lb : ∀ j < e.inst.numJobs, biases e.inst j ≤ e.opeStep j
  step_ub : ∀ j < e.inst.numJobs, e.opeStep j ≤ endBias e.inst j + 1
  status_eq : ∀ i < numOpes e.inst,
    e.featStatus i = if i < e.opeStep (appertain e.inst i) then 1 else 0
  sstatus_eq : ∀ i < numOpes e.inst,
    (e.sched i).status = if i < e.opeStep (appertain e.inst i) then 1 else 0
  finish_eq : ∀ j < e.inst.numJobs,
    e.maskJobFinish j = decide (e.opeStep j = endBias e.inst j + 1)
  done_eq : e.doneB = (List.range e.inst.numJobs).all e.maskJobFinish
  unsched_frozen : ∀ i < numOpes e.inst, e.opeStep (appertain e.inst i) ≤ i →
    ∀ m, e.procTimes i m = e.inst.procTimes0 i m ∧
      e.opeMaAdj i m = adj0 e.inst i m
  sched_pruned : ∀ i < numOpes e.inst, i < e.opeStep (appertain e.inst i) →
    (e.sched i).mach < e.inst.numMas ∧
      0 < e.inst.procTimes0 i (e.sched i).mach ∧
      ∀ m, e.opeMaAdj i m = (if m = (e.sched i).mach then 1 else 0) ∧
        e.procTimes i m =
          (if m = (e.sched i).mach then e.inst.procTimes0 i m else 0)
  proc_oob : ∀ i m, numOpes e.inst ≤ i ∨ e.inst.numMas ≤ m →
    e.procTimes i m = 0
  cal_eq : ∀ p o, e.calCumulAdj p o =
    if p + 1 < e.opeStep (appertain e.inst p) then 0 else A0 e.inst p o
  fproc_sched : ∀ i < numOpes e.inst, i < e.opeStep (appertain e.inst i) →
    e.featProc i = e.inst.procTimes0 i (e.sched i).mach
  fproc_unsched : ∀ i < numOpes e.inst, e.opeStep (appertain e.inst i) ≤ i →
    e.featProc i = initFeatProc e.inst i
  sstart_eq : ∀ i, (e.sched i).start = e.featStart i
  sstop_eq : ∀ i, (e.sched i).stop = e.featStart i + e.featProc i
  fstart_est : ∀ o < numOpes e.inst, e.opeStep (appertain e.inst o) ≤ o →
    e.featStart o = schedBase e (appertain e.inst o) +
      ∑ p ∈ Finset.Ico (e.opeStep (appertain e.inst o)) o, e.featProc p
  fjobend_eq : ∀ i < numOpes e.inst,
    e.featJobEnd i = e.featStart (endBias e.inst (appertain e.inst i)) +
      e.featProc (endBias e.inst (appertain e.inst i))
  time_nonneg : 0 ≤ e.time
  mmask_eq : ∀ m < e.inst.numMas, e.maskMaProcing m = !(e.machines m).idle
  idle_avail : ∀ m < e.inst.numMas, (e.machines m).idle = true →
    (e.machines m).avail ≤ e.time
  busy_avail : ∀ m < e.inst.numMas, (e.machines m).idle = false →
    e.time < (e.machines m).avail
  busy_job : ∀ m < e.inst.numMas, (e.machines m).idle = false →
    (e.machines m).jobRec < e.inst.numJobs ∧
      e.maskJobProcing (e.machines m).jobRec = true ∧
      biases e.inst (e.machines m).jobRec < e.opeStep (e.machines m).jobRec ∧
      (e.sched (e.opeStep (e.machines m).jobRec - 1)).mach = m ∧
      (e.sched (e.opeStep (e.machines m).jobRec - 1)).stop =
        (e.machines m).avail
  procing_busy : ∀ j < e.inst.numJobs, e.maskJobProcing j = true →
    biases e.inst j < e.opeStep j ∧
      (e.machines (e.sched (e.opeStep j - 1)).mach).idle = false ∧
      (e.machines (e.sched (e.opeStep j - 1)).mach).jobRec = j
  end_le_avail : ∀ i < numOpes e.inst, i < e.opeStep (appertain e.inst i) →
    (e.sched i).stop ≤ (e.machines (e.sched i).mach).avail
  idle_job : ∀ j < e.inst.numJobs, e.maskJobProcing j = false →
    biases e.inst j < e.opeStep j → (e.sched (e.opeStep j - 1)).stop ≤ e.time
  job_order : ∀ j < e.inst.numJobs, ∀ p, biases e.inst j ≤ p →
    p + 1 < e.opeStep j → (e.sched p).stop ≤ (e.sched (p + 1)).start
  ma_disjoint : ∀ i < numOpes e.inst, ∀ i2 < numOpes e.inst,
    i < e.opeStep (appertain e.inst i) → i2 < e.opeStep (appertain e.inst i2) →
    i ≠ i2 → (e.sched i).mach = (e.sched i2).mach →
    (e.sched i).start ≠ (e.sched i2).start ∧
      ((e.sched i).start < (e.sched i2).start →
        (e.sched i).stop ≤ (e.sched i2).start)
  utilizT_nonneg : ∀ m < e.inst.numMas, 0 ≤ (e.machines m).utilizT

/-- Processing times are nonnegative on every reachable state. -/
theorem Inv.proc_nonneg {e : Env} (h : Inv e) (i m : ℕ) :
    0 ≤ e.procTimes i m := by
  rcases lt_or_le i (numOpes e.inst) with hi | hi
  · rcases lt_or_le i (e.opeStep (appertain e.inst i)) with hs | hs
    · rcases (h.sched_pruned i hi hs).2.2 m with ⟨_, hp⟩
      rw [hp]
      split
      · exact h.wf.2.2.1 _ _
      · exact le_rfl
    · rw [(h.unsched_frozen i hi hs m).1]
      exact h.wf.2.2.1 _ _
  · rw [h.proc_oob i m (Or.inl hi)]

/-- Operation feature processing times are nonnegative in range. -/
theorem Inv.fproc_nonneg {e : Env} (h : Inv e) {i : ℕ}
    (hi : i < numOpes e.inst) : 0 ≤ e.featProc i := by
  rcases lt_or_le i (e.opeStep (appertain e.inst i)) with hs | hs
  · rw [h.fproc_sched i hi hs]
    exact le_of_lt (h.sched_pruned i hi hs).2.1
  · rw [h.fproc_unsched i hi hs]
    exact initFeatProc_nonneg _ h.wf _

/-- Scheduled operations have positive recorded durations. -/
theorem Inv.fproc_pos {e : Env} (h : Inv e) {i : ℕ}
    (hi : i < numOpes e.inst) (hs : i < e.opeStep (appertain e.inst i)) :
    0 < e.featProc i := by
  rw [h.fproc_sched i hi hs]
  exact (h.sched_pruned i hi hs).2.1

/-- A busy machine's available time is bounded by the completion feature of
the job it serves (evaluated at that job's last operation). -/
theorem Inv.avail_le_jobEnd {e : Env} (h : Inv e) {m : ℕ}
    (hm : m < e.inst.numMas) (hbusy : (e.machines m).idle = false) :
    (e.machines m).avail ≤ e.featJobEnd (endBias e.inst (e.machines m).jobRec) := by
  obtain ⟨hjlt, _, hlb, hmach, hstop⟩ := h.busy_job m hm hbusy
  set j := (e.machines m).jobRec with hj
  set k := e.opeStep j - 1 with hk
  have hkj : biases e.inst j ≤ k ∧ k ≤ endBias e.inst j := by
    have := h.step_ub j hjlt
    omega
  have hkno : k < numOpes e.inst :=
    lt_of_le_of_lt hkj.2 (endBias_lt_numOpes e.inst h.wf hjlt)
  have happk : appertain e.inst k = j := app_of_range e.inst h.wf hjlt hkj.1 hkj.2
  have happe : appertain e.inst (endBias e.inst j) = j := app_endBias e.inst h.wf hjlt
  have hEno : endBias e.inst j < numOpes e.inst := endBias_lt_numOpes e.inst h.wf hjlt
  have hje := h.fjobend_eq (endBias e.inst j) hEno
  rw [happe] at hje
  rcases eq_or_lt_of_le hkj.2 with hlast | hmid
  · -- the machine serves the job's last operation
    rw [hje, ← hlast, ← hstop, h.sstop_eq k]
  · -- the job's last operation is still unscheduled
    have hunsch : e.opeStep (appertain e.inst (endBias e.inst j)) ≤ endBias e.inst j := by
      rw [happe]; omega
    have hest := h.fstart_est (endBias e.inst j) hEno hunsch
    rw [happe] at hest
    have hbase : schedBase e j = (e.machines m).avail := by
      unfold schedBase
      rw [if_pos hlb, ← hk, hstop]
    have hsum : 0 ≤ ∑ p ∈ Finset.Ico (e.opeStep j) (endBias e.inst j), e.featProc p := by
      apply Finset.sum_nonneg
      intro p hp
      have hp2 := Finset.mem_Ico.1 hp
      exact h.fproc_nonneg (lt_trans hp2.2 hEno)
    have hfp : 0 ≤ e.featProc (endBias e.inst j) := h.fproc_nonneg hEno
    rw [hje, hest, hbase]
    linarith

theorem all_range_congr {f g : ℕ → Bool} {n : ℕ} (h : ∀ j < n, f j = g j) :
    (List.range n).all f = (List.range n).all g := by
  have key : ∀ l : List ℕ, (∀ j ∈ l, f j = g j) → l.all f = l.all g := by
    intro l
    induction l with
    | nil => intro _; rfl
    | cons x xs ih =>
      intro hm
      simp only [List.all_cons, hm x (List.mem_cons_self _ _),
        ih fun j hj => hm j (List.mem_cons_of_mem _ hj)]
  exact key _ fun j hj => h j (List.mem_range.1 hj)

/-- Facts about the most recently scheduled operation of a job. -/
theorem Inv.lastSched {e : Env} (h : Inv e) {j : ℕ} (hj : j < e.inst.numJobs)
    (hlb : biases e.inst j < e.opeStep j) :
    e.opeStep j - 1 < numOpes e.inst ∧
      appertain e.inst (e.opeStep j - 1) = j ∧
      e.opeStep j - 1 < e.opeStep (appertain e.inst (e.opeStep j - 1)) ∧
      (e.sched (e.opeStep j - 1)).mach < e.inst.numMas := by
  have hub := h.step_ub j hj
  have hk1 : biases e.inst j ≤ e.opeStep j - 1 := by omega
  have hk2 : e.opeStep j - 1 ≤ endBias e.inst j := by omega
  have hkno : e.opeStep j - 1 < numOpes e.inst :=
    lt_of_le_of_lt hk2 (endBias_lt_numOpes e.inst h.wf hj)
  have happ : appertain e.inst (e.opeStep j - 1) = j :=
    app_of_range e.inst h.wf hj hk1 hk2
  have hsch : e.opeStep j - 1 < e.opeStep (appertain e.inst (e.opeStep j - 1)) := by
    rw [happ]; omega
  exact ⟨hkno, happ, hsch, (h.sched_pruned _ hkno hsch).1⟩

theorem ifNoEligible_term_nonneg {e : Env} (h : Inv e) (j m : ℕ) :
    (0 : ℚ) ≤ if !e.maskMaProcing m && !(e.maskJobProcing j || e.maskJobFinish j)
      then e.procTimes (clampStep e j) m else 0 := by
  split
  · exact h.proc_nonneg _ _
  · exact le_rfl

theorem ifNoEligible_nonneg {e : Env} (h : Inv e) : 0 ≤ ifNoEligible e := by
  unfold ifNoEligible
  exact Finset.sum_nonneg fun j _ =>
    Finset.sum_nonneg fun m _ => ifNoEligible_term_nonneg h j m

/-- On a stalled slot every eligible pair has zero duration. -/
theorem stall_term_zero {e : Env} (h : Inv e) (hz : ifNoEligible e = 0)
    {j m : ℕ} (hj : j < e.inst.numJobs) (hm : m < e.inst.numMas)
    (hcond : (!e.maskMaProcing m &&
      !(e.maskJobProcing j || e.maskJobFinish j)) = true) :
    e.procTimes (clampStep e j) m = 0 := by
  unfold ifNoEligible at hz
  have hrow := (Finset.sum_eq_zero_iff_of_nonneg fun j _ =>
    Finset.sum_nonneg fun m _ => ifNoEligible_term_nonneg h j _).1 hz
    j (Finset.mem_range.2 hj)
  have hterm := (Finset.sum_eq_zero_iff_of_nonneg fun m _ =>
    ifNoEligible_term_nonneg h j m).1 hrow m (Finset.mem_range.2 hm)
  rw [if_pos hcond] at hterm
  exact hterm

/-- A stalled, unfinished slot has a busy machine. -/
theorem busy_exists {e : Env} (h : Inv e) (hz : ifNoEligible e = 0)
    (hd : e.doneB = false) :
    ∃ m < e.inst.numMas, (e.machines m).idle = false := by
  -- an unfinished job exists
  have hjex : ∃ j < e.inst.numJobs, e.maskJobFinish j = false := by
    by_contra hcon
    push_neg at hcon
    have : e.doneB = true := by
      rw [h.done_eq, List.all_eq_true]
      intro j hjmem
      have hj := List.mem_range.1 hjmem
      have := hcon j hj
      revert this
      cases e.maskJobFinish j <;> simp
    rw [this] at hd; cases hd
  obtain ⟨j, hj, hjf⟩ := hjex
  rcases hproc : e.maskJobProcing j with _ | _
  · -- job idle: its pending operation yields an eligible pair unless some
    -- machine is busy
    by_contra hcon
    push_neg at hcon
    have hallidle : ∀ m < e.inst.numMas, (e.machines m).idle = true := by
      intro m hm
      have := hcon m hm
      revert this
      cases (e.machines m).idle <;> simp
    have hub : e.opeStep j ≤ endBias e.inst j := by
      have h1 := h.step_ub j hj
      have h2 := h.finish_eq j hj
      rw [hjf] at h2
      have : ¬ (e.opeStep j = endBias e.inst j + 1) := by
        intro hx
        rw [hx] at h2
        simp at h2
      omega
    have hclamp : clampStep e j = e.opeStep j := by
      unfold clampStep
      rw [if_neg (by omega)]
    set o := e.opeStep j with ho
    have hono : o < numOpes e.inst :=
      lt_of_le_of_lt hub (endBias_lt_numOpes e.inst h.wf hj)
    have happ : appertain e.inst o = j :=
      app_of_range e.inst h.wf hj (h.step_lb j hj) hub
    have hunsch : e.opeStep (appertain e.inst o) ≤ o := by rw [happ]
    obtain ⟨m, hm, hmpos⟩ := h.wf.2.2.2.1 o hono
    have hfrozen := (h.unsched_frozen o hono hunsch m).1
    have hmm := h.mmask_eq m hm
    rw [hallidle m hm] at hmm
    have hcond : (!e.maskMaProcing m &&
        !(e.maskJobProcing j || e.maskJobFinish j)) = true := by
      rw [hmm, hproc, hjf]; rfl
    have := stall_term_zero h hz hj hm hcond
    rw [hclamp, hfrozen] at this
    rw [this] at hmpos
    exact lt_irrefl 0 hmpos
  · -- job in process: its serving machine is busy
    obtain ⟨hlb, hbusy, _⟩ := h.procing_busy j hj hproc
    obtain ⟨_, _, _, hmach⟩ := h.lastSched hj hlb
    exact ⟨_, hmach, hbusy⟩

/-- On a stalled, unfinished slot the clock jump is strictly forward and
frees at least one busy machine. -/
theorem stall_cOf {e : Env} (h : Inv e) (hz : ifNoEligible e = 0)
    (hd : e.doneB = false) :
    e.time < cOf e ∧
      ∃ m < e.inst.numMas, dOf e (ifNoEligible e) m = true ∧
        (e.machines m).idle = false ∧ (e.machines m).avail = cOf e := by
  obtain ⟨ms, hms, hmsbusy⟩ := busy_exists h hz hd
  have havs : e.time < (e.machines ms).avail := h.busy_avail ms hms hmsbusy
  have hsent : (e.machines ms).avail < sentinelM e := by
    have h1 := h.avail_le_jobEnd hms hmsbusy
    have hjr := (h.busy_job ms hms hmsbusy).1
    have h2 : e.featJobEnd (endBias e.inst (e.machines ms).jobRec) ≤
        maxOver (numOpes e.inst) e.featJobEnd :=
      le_maxOver _ (endBias_lt_numOpes e.inst h.wf hjr)
    unfold sentinelM
    linarith
  have hb : ∀ m < e.inst.numMas, e.time < bOf e m := by
    intro m hm
    unfold bOf
    split
    · next hgt => exact hgt
    · calc e.time < (e.machines ms).avail := havs
        _ < sentinelM e := hsent
  have hcle : cOf e ≤ (e.machines ms).avail := by
    have := minOver_le (bOf e) hms
    unfold bOf at this
    rw [if_pos havs] at this
    exact this
  obtain ⟨i, hi, hci⟩ := minOver_mem_of_pos (bOf e) (by omega : 0 < e.inst.numMas)
  have hcof : cOf e = bOf e i := hci
  have htc : e.time < cOf e := by rw [hcof]; exact hb i hi
  refine ⟨htc, i, hi, ?_⟩
  have hiav : (e.machines i).avail > e.time := by
    by_contra hle
    push_neg at hle
    have hsen : bOf e i = sentinelM e := by unfold bOf; rw [if_neg (by linarith)]
    rw [hsen] at hcof
    have hlt : cOf e < sentinelM e := lt_of_le_of_lt hcle hsent
    rw [hcof] at hlt
    exact lt_irrefl _ hlt
  have hbi : bOf e i = (e.machines i).avail := by unfold bOf; rw [if_pos hiav]
  have hav : (e.machines i).avail = cOf e := by rw [hcof, hbi]
  have hibusy : (e.machines i).idle = false := by
    rcases hcase : (e.machines i).idle with _ | _
    · rfl
    · have := h.idle_avail i hi hcase
      linarith
  refine ⟨?_, hibusy, hav⟩
  unfold dOf needTrans
  rw [hav, hibusy, hd, hz]
  simp

theorem machinesNext_utilizT (e : Env) (f : ℚ) (m : ℕ) :
    (machinesNext e f m).utilizT = (e.machines m).utilizT := by
  unfold machinesNext; split <;> rfl

theorem machinesNext_avail (e : Env) (f : ℚ) (m : ℕ) :
    (machinesNext e f m).avail = (e.machines m).avail := by
  unfold machinesNext; split <;> rfl

theorem machinesNext_jobRec (e : Env) (f : ℚ) (m : ℕ) :
    (machinesNext e f m).jobRec = (e.machines m).jobRec := by
  unfold machinesNext; split <;> rfl

theorem machinesNext_idle (e : Env) (f : ℚ) (m : ℕ) :
    (machinesNext e f m).idle = (dOf e f m || (e.machines m).idle) := by
  unfold machinesNext
  rcases hd : dOf e f m <;> simp [hd]

theorem needTrans_true_elim {e : Env} {f : ℚ} (h : needTrans e f = true) :
    f = 0 ∧ e.doneB = false := by
  unfold needTrans at h
  rcases hf : decide (f = 0) with _ | _ <;> rw [hf] at h
  · cases h
  · rcases hdd : e.doneB with _ | _
    · exact ⟨of_decide_eq_true hf, rfl⟩
    · rw [hdd] at h; cases h

theorem dOf_false_of_not_needTrans {e : Env} {f : ℚ}
    (h : needTrans e f = false) (m : ℕ) : dOf e f m = false := by
  unfold dOf
  rw [h, Bool.and_false]

theorem maskJFNext_eq {e : Env} (h : Inv e) {j : ℕ} (hj : j < e.inst.numJobs) :
    maskJFNext e j = e.maskJobFinish j := by
  unfold maskJFNext
  split
  · next heq => rw [h.finish_eq j hj, decide_eq_true heq]
  · rfl

theorem done_eq_next {e : Env} (h : Inv e) :
    e.doneB = (List.range e.inst.numJobs).all (maskJFNext e) := by
  rw [h.done_eq]
  exact all_range_congr fun j hj => (maskJFNext_eq h hj).symm

theorem dOf_elim {e : Env} {f : ℚ} {m : ℕ} (hd : dOf e f m = true) :
    (e.machines m).avail = cOf e ∧ (e.machines m).idle = false ∧
      needTrans e f = true := by
  unfold dOf at hd
  rw [Bool.and_assoc, Bool.and_eq_true, Bool.and_eq_true] at hd
  exact ⟨of_decide_eq_true hd.1, of_decide_eq_true hd.2.1, hd.2.2⟩

/-- Preservation of the invariant by `next_time` when the slot does not
need the transition (the call only refreshes the utilization feature and
the—already saturated—finish mask). -/
theorem Inv_nextTime_of_noTrans {e : Env} (h : Inv e) {f : ℚ}
    (hNT : needTrans e f = false) : Inv (nextTime e f) := by
  have hdof := dOf_false_of_not_needTrans hNT
  have hrec : nextTime e f =
      { e with
        featMaUtiliz := featMaUtilizNext e f
        maskJobFinish := maskJFNext e } := by
    unfold nextTime
    ext <;>
      simp [timeNext, hNT, machinesNext, hdof, maskJPNext, maskMPNext,
        List.any_eq_true]
  rw [hrec]
  exact
    { wf := h.wf
      step_lb := h.step_lb
      step_ub := h.step_ub
      status_eq := h.status_eq
      sstatus_eq := h.sstatus_eq
      finish_eq := by
        intro j hj
        show maskJFNext e j = _
        rw [maskJFNext_eq h hj]
        exact h.finish_eq j hj
      done_eq := done_eq_next h
      unsched_frozen := h.unsched_frozen
      sched_pruned := h.sched_pruned
      proc_oob := h.proc_oob
      cal_eq := h.cal_eq
      fproc_sched := h.fproc_sched
      fproc_unsched := h.fproc_unsched
      sstart_eq := h.sstart_eq
      sstop_eq := h.sstop_eq
      fstart_est := h.fstart_est
      fjobend_eq := h.fjobend_eq
      time_nonneg := h.time_nonneg
      mmask_eq := h.mmask_eq
      idle_avail := h.idle_avail
      busy_avail := h.busy_avail
      busy_job := h.busy_job
      procing_busy := h.procing_busy
      end_le_avail := h.end_le_avail
      idle_job := h.idle_job
      job_order := h.job_order
      ma_disjoint := h.ma_disjoint
      utilizT_nonneg := h.utilizT_nonneg }

/-- Preservation of the invariant by `next_time` on a stalled, unfinished
slot: the clock jumps to the earliest busy-machine completion, those
machines and their jobs are freed. -/
theorem Inv_nextTime_of_trans {e : Env} (h : Inv e)
    (hNT : needTrans e (ifNoEligible e) = true) :
    Inv (nextTime e (ifNoEligible e)) := by
  obtain ⟨hz, hd⟩ := needTrans_true_elim hNT
  obtain ⟨htc, mhat, hmhat, hdhat, hbusyhat, havhat⟩ := stall_cOf h hz hd
  have htime : timeNext e (ifNoEligible e) = cOf e := by
    unfold timeNext
    rw [hNT]
    rfl
  -- surviving busy machines keep an available time strictly beyond the jump
  have hsurvive : ∀ m < e.inst.numMas, dOf e (ifNoEligible e) m = false →
      (e.machines m).idle = false → cOf e < (e.machines m).avail := by
    intro m hm hdm hbusy
    have hgt : e.time < (e.machines m).avail := h.busy_avail m hm hbusy
    have hble : cOf e ≤ (e.machines m).avail := by
      have hle := minOver_le (bOf e) hm
      unfold bOf at hle
      rw [if_pos hgt] at hle
      exact hle
    have hne : (e.machines m).avail ≠ cOf e := by
      intro heq
      have : dOf e (ifNoEligible e) m = true := by
        unfold dOf
        rw [decide_eq_true heq, decide_eq_true hbusy, hNT]
        rfl
      rw [this] at hdm
      cases hdm
    exact lt_of_le_of_ne hble fun hx => hne hx.symm
  -- freed machines: characterize the job-release mask
  have hjp_elim : ∀ j, maskJPNext e (ifNoEligible e) j = true →
      e.maskJobProcing j = true ∧
      ∀ m2 < e.inst.numMas, dOf e (ifNoEligible e) m2 = true →
        (e.machines m2).jobRec ≠ j := by
    intro j hjp
    unfold maskJPNext at hjp
    split at hjp
    · cases hjp
    · next hany =>
      refine ⟨hjp, ?_⟩
      intro m2 hm2 hdm2 hrec
      apply hany
      rw [List.any_eq_true]
      exact ⟨m2, List.mem_range.2 hm2, by rw [hdm2, decide_eq_true hrec]; rfl⟩
  refine
    { wf := h.wf
      step_lb := h.step_lb
      step_ub := h.step_ub
      status_eq := h.status_eq
      sstatus_eq := h.sstatus_eq
      finish_eq := by
        intro j hj
        show maskJFNext e j = _
        rw [maskJFNext_eq h hj]
        exact h.finish_eq j hj
      done_eq := done_eq_next h
      unsched_frozen := h.unsched_frozen
      sched_pruned := h.sched_pruned
      proc_oob := h.proc_oob
      cal_eq := h.cal_eq
      fproc_sched := h.fproc_sched
      fproc_unsched := h.fproc_unsched
      sstart_eq := h.sstart_eq
      sstop_eq := h.sstop_eq
      fstart_est := h.fstart_est
      fjobend_eq := h.fjobend_eq
      time_nonneg := ?_
      mmask_eq := ?_
      idle_avail := ?_
      busy_avail := ?_
      busy_job := ?_
      procing_busy := ?_
      end_le_avail := ?_
      idle_job := ?_
      job_order := h.job_order
      ma_disjoint := h.ma_disjoint
      utilizT_nonneg := ?_ }
  · -- time_nonneg
    show (0 : ℚ) ≤ timeNext e (ifNoEligible e)
    rw [htime]
    linarith [h.time_nonneg]
  · -- mmask_eq
    intro m hm
    show maskMPNext e (ifNoEligible e) m = !(machinesNext e (ifNoEligible e) m).idle
    unfold maskMPNext
    rw [machinesNext_idle]
    rcases hdm : dOf e (ifNoEligible e) m
    · rw [Bool.false_or]
      exact h.mmask_eq m hm
    · rfl
  · -- idle_avail
    intro m hm hidle
    show (machinesNext e (ifNoEligible e) m).avail ≤ timeNext e (ifNoEligible e)
    rw [machinesNext_avail, htime]
    rcases hdm : dOf e (ifNoEligible e) m
    · rw [nextTime_machines, machinesNext_idle, hdm, Bool.false_or] at hidle
      have := h.idle_avail m hm hidle
      linarith
    · rw [(dOf_elim hdm).1]
  · -- busy_avail
    intro m hm hbusy
    show timeNext e (ifNoEligible e) < (machinesNext e (ifNoEligible e) m).avail
    rw [machinesNext_avail, htime]
    rw [nextTime_machines, machinesNext_idle] at hbusy
    rcases hdm : dOf e (ifNoEligible e) m
    · rw [hdm, Bool.false_or] at hbusy
      exact hsurvive m hm hdm hbusy
    · rw [hdm] at hbusy
      cases hbusy
  · -- busy_job
    intro m hm hbusy
    rw [nextTime_machines, machinesNext_idle] at hbusy
    rcases hdm : dOf e (ifNoEligible e) m
    · rw [hdm, Bool.false_or] at hbusy
      obtain ⟨hjr, hproc, hlb, hmach, hstop⟩ := h.busy_job m hm hbusy
      simp only [nextTime_machines, nextTime_maskJobProcing, nextTime_inst,
        nextTime_opeStep, nextTime_sched, machinesNext_jobRec,
        machinesNext_avail]
      refine ⟨hjr, ?_, hlb, hmach, hstop⟩
      unfold maskJPNext
      split
      · next hany =>
        rw [List.any_eq_true] at hany
        obtain ⟨m2, hm2mem, hpred⟩ := hany
        rw [Bool.and_eq_true] at hpred
        have hdm2 := hpred.1
        have hrec2 := of_decide_eq_true hpred.2
        have hm2 := List.mem_range.1 hm2mem
        have hbusy2 := (dOf_elim hdm2).2.1
        obtain ⟨_, _, hlb2, hmach2, _⟩ := h.busy_job m2 hm2 hbusy2
        rw [hrec2] at hmach2
        rw [hmach] at hmach2
        rw [← hmach2, hdm] at hdm2
        cases hdm2
      · exact hproc
    · rw [hdm] at hbusy
      cases hbusy
  · -- procing_busy
    intro j hj hproc
    have ⟨hold, hnofree⟩ := hjp_elim j hproc
    obtain ⟨hlb, hbusy, hrec⟩ := h.procing_busy j hj hold
    obtain ⟨_, _, _, hmachlt⟩ := h.lastSched hj hlb
    have hdmm : dOf e (ifNoEligible e) (e.sched (e.opeStep j - 1)).mach = false := by
      rcases hdm : dOf e (ifNoEligible e) (e.sched (e.opeStep j - 1)).mach
      · rfl
      · exact absurd hrec (hnofree _ hmachlt hdm)
    simp only [nextTime_machines, nextTime_sched, nextTime_opeStep,
      nextTime_inst]
    refine ⟨hlb, ?_, ?_⟩
    · rw [machinesNext_idle, hdmm, Bool.false_or]
      exact hbusy
    · rw [machinesNext_jobRec]
      exact hrec
  · -- end_le_avail
    intro i hi hs
    show (e.sched i).stop ≤ (machinesNext e (ifNoEligible e) (e.sched i).mach).avail
    rw [machinesNext_avail]
    exact h.end_le_avail i hi hs
  · -- idle_job
    intro j hj hjp hlb
    show (e.sched (e.opeStep j - 1)).stop ≤ timeNext e (ifNoEligible e)
    rw [htime]
    rcases hold : e.maskJobProcing j
    · have := h.idle_job j hj hold hlb
      linarith
    · -- the job was released by a freed machine at the new clock value
      rw [nextTime_maskJobProcing] at hjp
      unfold maskJPNext at hjp
      split at hjp
      · next hany =>
        rw [List.any_eq_true] at hany
        obtain ⟨m2, hm2mem, hpred⟩ := hany
        rw [Bool.and_eq_true] at hpred
        have hdm2 := hpred.1
        have hrec2 := of_decide_eq_true hpred.2
        have hm2 := List.mem_range.1 hm2mem
        obtain ⟨hav2, hbusy2, _⟩ := dOf_elim hdm2
        obtain ⟨_, _, _, _, hstop2⟩ := h.busy_job m2 hm2 hbusy2
        rw [hrec2] at hstop2
        rw [hstop2, hav2]
      · rw [hold] at hjp
        cases hjp
  · -- utilizT_nonneg
    intro m hm
    show (0 : ℚ) ≤ (machinesNext e (ifNoEligible e) m).utilizT
    rw [machinesNext_utilizT]
    exact h.utilizT_nonneg m hm

/-- Any `next_time` round with the flag computed by `if_no_eligible`
preserves the invariant. -/
theorem Inv_nextTime {e : Env} (h : Inv e) :
    Inv (nextTime e (ifNoEligible e)) := by
  rcases hNT : needTrans e (ifNoEligible e)
  · exact Inv_nextTime_of_noTrans h hNT
  · exact Inv_nextTime_of_trans h hNT

/-- Evaluation of the row-times-cumulative-adjacency product: with the rows
of already completed predecessors zeroed out (pointer function `os`), only
the window from the last zeroable row to the target operation survives. -/
theorem sum_indicator_window (I : Inst) (hwf : WF I) (g : ℕ → ℚ) (os : ℕ → ℕ)
    {j o : ℕ} (hj : j < I.numJobs) (hjo : appertain I o = j)
    (_ho1 : biases I j ≤ o) (ho2 : o ≤ endBias I j) (_hos : biases I j ≤ os j) :
    (∑ p ∈ Finset.range (numOpes I),
        g p * (if p + 1 < os (appertain I p) then 0 else A0 I p o))
      = ∑ p ∈ Finset.Ico (max (biases I j) (os j - 1)) o, g p := by
  have hoNo : o < numOpes I := lt_of_le_of_lt ho2 (endBias_lt_numOpes I hwf hj)
  have hterm : ∀ p ∈ Finset.range (numOpes I),
      g p * (if p + 1 < os (appertain I p) then 0 else A0 I p o) =
      if (¬ (p + 1 < os (appertain I p)) ∧ appertain I p = j ∧ p < o) then g p
      else 0 := by
    intro p _
    unfold A0
    rw [hjo]
    by_cases h1 : p + 1 < os (appertain I p) <;>
      by_cases h2 : appertain I p = j ∧ p < o
    · rw [if_pos h1, if_neg (by tauto), mul_zero]
    · rw [if_pos h1, if_neg (by tauto), mul_zero]
    · rw [if_neg h1, if_pos ⟨h2.1, h2.2, hoNo⟩, if_pos ⟨h1, h2⟩, mul_one]
    · rw [if_neg h1, if_neg (by tauto), mul_zero]
      rw [if_neg (by tauto)]
  rw [Finset.sum_congr rfl hterm, ← Finset.sum_filter]
  congr 1
  apply Finset.ext
  intro p
  simp only [Finset.mem_filter, Finset.mem_range, Finset.mem_Ico]
  constructor
  · rintro ⟨hpno, hcond, happ, hpo⟩
    rw [happ] at hcond
    have hplo : biases I j ≤ p := by
      obtain ⟨_, hb, _⟩ := appertain_inv I hwf hpno
      rw [happ] at hb
      exact hb
    constructor
    · omega
    · exact hpo
  · rintro ⟨hlo, hpo⟩
    have hplo : biases I j ≤ p := le_trans (le_max_left _ _) hlo
    have hpub : p ≤ endBias I j := by omega
    have happ : appertain I p = j := app_of_range I hwf hj hplo hpub
    have hpno : p < numOpes I :=
      lt_of_le_of_lt hpub (endBias_lt_numOpes I hwf hj)
    rw [happ]
    have hge : os j - 1 ≤ p := le_trans (le_max_right _ _) hlo
    exact ⟨hpno, by omega, rfl, hpo⟩

theorem opeStepStep_self (e : Env) (jb : ℕ) :
    opeStepStep e jb jb = e.opeStep jb + 1 := by
  unfold opeStepStep
  rw [if_pos rfl]

theorem opeStepStep_other (e : Env) {jb j : ℕ} (hne : j ≠ jb) :
    opeStepStep e jb j = e.opeStep j := by
  unfold opeStepStep
  rw [if_neg hne]

theorem opeStep_le_opeStepStep (e : Env) (jb j : ℕ) :
    e.opeStep j ≤ opeStepStep e jb j := by
  unfold opeStepStep
  split <;> omega

/-- Context facts about the decided operation of a legal decision. -/
theorem op_facts {e : Env} (h : Inv e) {op jb : ℕ} (hjb : jb < e.inst.numJobs)
    (hop : op = e.opeStep jb) (hjf : e.maskJobFinish jb = false) :
    biases e.inst jb ≤ op ∧ op ≤ endBias e.inst jb ∧ op < numOpes e.inst ∧
      appertain e.inst op = jb ∧ e.opeStep (appertain e.inst op) ≤ op := by
  have hlb := h.step_lb jb hjb
  have hub := h.step_ub jb hjb
  have hne : e.opeStep jb ≠ endBias e.inst jb + 1 := by
    intro hx
    have := h.finish_eq jb hjb
    rw [hjf, hx] at this
    simp at this
  have h1 : biases e.inst jb ≤ op := by omega
  have h2 : op ≤ endBias e.inst jb := by omega
  have h3 : op < numOpes e.inst :=
    lt_of_le_of_lt h2 (endBias_lt_numOpes e.inst h.wf hjb)
  have h4 : appertain e.inst op = jb := app_of_range e.inst h.wf hjb h1 h2
  exact ⟨h1, h2, h3, h4, by rw [h4]; omega⟩

/-- Row 0 of `feat_opes_batch` after the scheduling phase satisfies the
status characterization with the advanced pointer. -/
theorem statusStep_sq {e : Env} (h : Inv e) {op jb : ℕ}
    (hjb : jb < e.inst.numJobs) (hop : op = e.opeStep jb)
    (hjf : e.maskJobFinish jb = false) :
    ∀ i < numOpes e.inst, statusStep e op i =
      if i < opeStepStep e jb (appertain e.inst i) then 1 else 0 := by
  obtain ⟨hlb, hub, hopNo, happop, _⟩ := op_facts h hjb hop hjf
  intro i hi
  unfold statusStep
  by_cases hio : i = op
  · rw [if_pos hio, hio, happop, opeStepStep_self]
    rw [if_pos (by omega)]
  · rw [if_neg hio, h.status_eq i hi]
    by_cases hja : appertain e.inst i = jb
    · rw [hja, opeStepStep_self]
      by_cases hlt : i < e.opeStep jb
      · rw [if_pos hlt, if_pos (by omega)]
      · rw [if_neg hlt, if_neg (by omega)]
    · rw [opeStepStep_other e hja]

/-- The cumulative adjacency after the scheduling phase satisfies the
zeroed-row characterization with the advanced pointer. -/
theorem calStep_cal_eq {e : Env} (h : Inv e) {op jb : ℕ}
    (hjb : jb < e.inst.numJobs) (hop : op = e.opeStep jb)
    (hjf : e.maskJobFinish jb = false) :
    ∀ p o, calStep e op jb p o =
      if p + 1 < opeStepStep e jb (appertain e.inst p) then 0
      else A0 e.inst p o := by
  obtain ⟨hble, hbub, hopNo, happ, _⟩ := op_facts h hjb hop hjf
  intro p o
  unfold calStep lastOpe
  have hjobp : appertain e.inst p = jb → (p < numOpes e.inst ∧ biases e.inst jb ≤ p ∧ p ≤ endBias e.inst jb) := by
    intro hpj
    have hpno : p < numOpes e.inst := by
      by_contra hge
      push_neg at hge
      rw [appertain_ge e.inst hge] at hpj
      omega
    obtain ⟨_, h1, h2⟩ := app_mem e.inst h.wf hpno
    rw [hpj] at h1 h2
    exact ⟨hpno, h1, h2⟩
  by_cases hcase : op ≤ biases e.inst jb
  · -- first operation of the job: the zeroed row is the identically-zero
    -- last row
    rw [if_pos hcase]
    have hopeq : op = biases e.inst jb := le_antisymm hcase hble
    by_cases hp : p = numOpes e.inst - 1
    · subst hp
      rw [if_pos rfl, A0_last_row]
      split <;> rfl
    · rw [if_neg hp, h.cal_eq p o]
      by_cases hpj : appertain e.inst p = jb
      · obtain ⟨hpno, h1, h2⟩ := hjobp hpj
        rw [hpj, opeStepStep_self]
        rw [if_neg (by omega), if_neg (by omega)]
      · rw [opeStepStep_other e hpj]
  · -- later operation: zero the predecessor row
    rw [if_neg hcase]
    push_neg at hcase
    by_cases hp : p = op - 1
    · subst hp
      rw [if_pos rfl]
      have hpj : appertain e.inst (op - 1) = jb :=
        app_of_range e.inst h.wf hjb (by omega) (by omega)
      rw [hpj, opeStepStep_self, ← hop]
      rw [if_pos (by omega)]
    · rw [if_neg hp, h.cal_eq p o]
      by_cases hpj : appertain e.inst p = jb
      · obtain ⟨hpno, h1, h2⟩ := hjobp hpj
        rw [hpj, opeStepStep_self]
        by_cases hlt : p + 1 < e.opeStep jb
        · rw [if_pos hlt, if_pos (by omega)]
        · rw [if_neg hlt, if_neg (by omega)]
      · rw [opeStepStep_other e hpj]

/-- Row 5 after the scheduling phase, at operations scheduled in the new
state: the point write for the chosen operation, the retained actual start
for the rest. -/
theorem featStartStep_sched {e : Env} (h : Inv e) {op ma jb : ℕ}
    (hjb : jb < e.inst.numJobs) (hop : op = e.opeStep jb)
    (hjf : e.maskJobFinish jb = false) {i : ℕ} (hi : i < numOpes e.inst)
    (hs : i < opeStepStep e jb (appertain e.inst i)) :
    featStartStep e op ma jb i = startASt e op i := by
  have hst : statusStep e op i = 1 := by
    rw [statusStep_sq h hjb hop hjf i hi, if_pos hs]
  unfold featStartStep estimatesSt startTimesSt
  rw [hst]
  ring

/-- Row 5 after the scheduling phase, at operations still unscheduled in
the new state: the estimate is the end of the job's last scheduled
operation plus the durations of the intermediate pending operations. -/
theorem featStartStep_unsched {e : Env} (h : Inv e) {op ma jb : ℕ}
    (hjb : jb < e.inst.numJobs) (hop : op = e.opeStep jb)
    (hjf : e.maskJobFinish jb = false) {o : ℕ} (ho : o < numOpes e.inst)
    (hun : opeStepStep e jb (appertain e.inst o) ≤ o) :
    featStartStep e op ma jb o =
      (if biases e.inst (appertain e.inst o) <
          opeStepStep e jb (appertain e.inst o) then
        (schedStep e op ma jb
          (opeStepStep e jb (appertain e.inst o) - 1)).stop
      else 0) +
      ∑ p ∈ Finset.Ico (opeStepStep e jb (appertain e.inst o)) o,
        featProcStep e op ma p := by
  obtain ⟨hble, hbub, hopNo, happop, hopuns⟩ := op_facts h hjb hop hjf
  obtain ⟨hjlt, hjo1, hjo2⟩ := app_mem e.inst h.wf ho
  set j := appertain e.inst o with hjdef
  have hos' : biases e.inst j ≤ opeStepStep e jb j :=
    le_trans (h.step_lb j hjlt) (opeStep_le_opeStepStep e jb j)
  have hstat0 : statusStep e op o = 0 := by
    rw [statusStep_sq h hjb hop hjf o ho, ← hjdef, if_neg (by omega)]
  have hexp : featStartStep e op ma jb o =
      ∑ p ∈ Finset.range (numOpes e.inst),
        (startTimesSt e op p + featProcStep e op ma p) *
          (if p + 1 < opeStepStep e jb (appertain e.inst p) then 0
            else A0 e.inst p o) := by
    unfold featStartStep estimatesSt startTimesSt
    rw [hstat0]
    rw [Finset.sum_congr rfl fun p _ => by
      rw [calStep_cal_eq h hjb hop hjf p o]]
    ring
  rw [hexp, sum_indicator_window e.inst h.wf _ (opeStepStep e jb) hjlt rfl
    hjo1 hjo2 hos']
  -- window ops are unscheduled in the new state, so their start-time term
  -- vanishes
  have hwindow : ∀ p, opeStepStep e jb j ≤ p → p < o →
      startTimesSt e op p + featProcStep e op ma p = featProcStep e op ma p := by
    intro p hp1 hp2
    have hpno : p < numOpes e.inst := lt_trans hp2 ho
    have happ : appertain e.inst p = j :=
      app_of_range e.inst h.wf hjlt (le_trans hos' hp1) (by omega)
    have : statusStep e op p = 0 := by
      rw [statusStep_sq h hjb hop hjf p hpno, happ, if_neg (by omega)]
    unfold startTimesSt
    rw [this]
    ring
  by_cases hb : biases e.inst j < opeStepStep e jb j
  · -- the job already has a scheduled operation in the new state
    set k := opeStepStep e jb j - 1 with hkdef
    have hmax : max (biases e.inst j) (opeStepStep e jb j - 1) = k := by
      omega
    have hklt : k < o := by omega
    rw [hmax, Finset.sum_eq_sum_Ico_succ_bot hklt]
    have hksucc : k + 1 = opeStepStep e jb j := by omega
    have hkno : k < numOpes e.inst := lt_trans hklt ho
    have happk : appertain e.inst k = j :=
      app_of_range e.inst h.wf hjlt (by omega) (by omega)
    have hksch : k < opeStepStep e jb (appertain e.inst k) := by
      rw [happk]; omega
    have hterm : startTimesSt e op k + featProcStep e op ma k =
        (schedStep e op ma jb k).stop := by
      have hst1 : statusStep e op k = 1 := by
        rw [statusStep_sq h hjb hop hjf k hkno, if_pos hksch]
      have hfs := @featStartStep_sched e h op ma jb hjb hop hjf k hkno hksch
      unfold schedStep
      simp only
      rw [hfs]
      unfold startTimesSt
      rw [hst1]
      ring
    rw [hterm, if_pos hb, hksucc]
    congr 1
    apply Finset.sum_congr rfl
    intro p hp
    have hp2 := Finset.mem_Ico.1 hp
    exact hwindow p hp2.1 hp2.2
  · -- job untouched and with no completed operation
    have hbeq : opeStepStep e jb j = biases e.inst j := by omega
    have hmax : max (biases e.inst j) (opeStepStep e jb j - 1) =
        opeStepStep e jb j := by omega
    rw [hmax, if_neg hb, zero_add]
    apply Finset.sum_congr rfl
    intro p hp
    have hp2 := Finset.mem_Ico.1 hp
    exact hwindow p hp2.1 hp2.2

/-- The scheduling phase of `step` preserves the invariant for every legal
decision. -/
theorem Inv_stepSched {e : Env} {a : Action} (h : Inv e) (hl : Legal e a) :
    Inv (stepSched e a) := by
  obtain ⟨op, ma, jb⟩ := a
  obtain ⟨hjb, hma, hop, hjpF, hjfF, hmpF, hposP⟩ := hl
  dsimp only at hjb hma hop hjpF hjfF hmpF hposP
  obtain ⟨hble, hbub, hopNo, happop, hopuns⟩ := op_facts h hjb hop hjfF
  have hChosen : procChosen e op ma = e.inst.procTimes0 op ma := by
    unfold procChosen procStep adjStep
    rw [if_pos rfl, if_pos rfl, (h.unsched_frozen op hopNo hopuns ma).1]
    push_cast
    ring
  have hChosenPos : 0 < procChosen e op ma := by
    rw [hChosen, ← (h.unsched_frozen op hopNo hopuns ma).1]
    exact hposP
  have hmidle : (e.machines ma).idle = true := by
    have hq := h.mmask_eq ma hma
    rw [hmpF] at hq
    rcases hcase : (e.machines ma).idle
    · rw [hcase] at hq
      cases hq
    · rfl
  have havle : (e.machines ma).avail ≤ e.time := h.idle_avail ma hma hmidle
  have hnotop : ∀ i, i < e.opeStep (appertain e.inst i) → i ≠ op := by
    intro i hi hieq
    rw [hieq, happop, ← hop] at hi
    omega
  have hschedNew : ∀ i, i < numOpes e.inst →
      ((i < opeStepStep e jb (appertain e.inst i)) ↔
        (i = op ∨ i < e.opeStep (appertain e.inst i))) := by
    intro i _
    by_cases hja : appertain e.inst i = jb
    · rw [hja, opeStepStep_self, hop]
      omega
    · rw [opeStepStep_other e hja]
      constructor
      · exact fun hx => Or.inr hx
      · rintro (rfl | hx)
        · exact absurd happop hja
        · exact hx
  have hfs_op : featStartStep e op ma jb op = e.time := by
    rw [@featStartStep_sched e h op ma jb hjb hop hjfF op hopNo
      (by rw [happop, opeStepStep_self]; omega)]
    unfold startASt
    rw [if_pos rfl]
  have hfs_old : ∀ i, i < numOpes e.inst → i ≠ op →
      i < e.opeStep (appertain e.inst i) →
      featStartStep e op ma jb i = e.featStart i := by
    intro i hi hne hs
    rw [@featStartStep_sched e h op ma jb hjb hop hjfF i hi
      (lt_of_lt_of_le hs (opeStep_le_opeStepStep e jb _))]
    unfold startASt
    rw [if_neg hne]
  have hfp_old : ∀ i, i ≠ op → featProcStep e op ma i = e.featProc i := by
    intro i hne
    unfold featProcStep
    rw [if_neg hne]
  have hmach_op : (schedStep e op ma jb op).mach = ma := by
    rw [schedStep_mach, if_pos rfl]
  have hmach_old : ∀ i, i ≠ op →
      (schedStep e op ma jb i).mach = (e.sched i).mach := by
    intro i hne
    rw [schedStep_mach, if_neg hne]
  have hstart_op : (schedStep e op ma jb op).start = e.time := by
    rw [schedStep_start]
    exact hfs_op
  have hstop_op : (schedStep e op ma jb op).stop =
      e.time + procChosen e op ma := by
    rw [schedStep_stop, hfs_op]
    unfold featProcStep
    rw [if_pos rfl]
  have hstart_old : ∀ i, i < numOpes e.inst → i ≠ op →
      i < e.opeStep (appertain e.inst i) →
      (schedStep e op ma jb i).start = (e.sched i).start := by
    intro i hi hne hs
    rw [schedStep_start, hfs_old i hi hne hs, h.sstart_eq i]
  have hstop_old : ∀ i, i < numOpes e.inst → i ≠ op →
      i < e.opeStep (appertain e.inst i) →
      (schedStep e op ma jb i).stop = (e.sched i).stop := by
    intro i hi hne hs
    rw [schedStep_stop, hfs_old i hi hne hs, hfp_old i hne, h.sstop_eq i]
  have hself : opeStepStep e jb jb - 1 = op := by
    rw [opeStepStep_self]
    omega
  refine
    { wf := h.wf
      step_lb := ?_
      step_ub := ?_
      status_eq := fun i hi => statusStep_sq h hjb hop hjfF i hi
      sstatus_eq := ?_
      finish_eq := ?_
      done_eq := rfl
      unsched_frozen := ?_
      sched_pruned := ?_
      proc_oob := ?_
      cal_eq := calStep_cal_eq h hjb hop hjfF
      fproc_sched := ?_
      fproc_unsched := ?_
      sstart_eq := fun i => rfl
      sstop_eq := fun i => rfl
      fstart_est := fun o ho hun => featStartStep_unsched h hjb hop hjfF ho hun
      fjobend_eq := fun i _ => rfl
      time_nonneg := h.time_nonneg
      mmask_eq := ?_
      idle_avail := ?_
      busy_avail := ?_
      busy_job := ?_
      procing_busy := ?_
      end_le_avail := ?_
      idle_job := ?_
      job_order := ?_
      ma_disjoint := ?_
      utilizT_nonneg := ?_ }
  · -- step_lb
    intro j hj
    have := h.step_lb j hj
    show biases e.inst j ≤ opeStepStep e jb j
    unfold opeStepStep
    split <;> omega
  · -- step_ub
    intro j hj
    have := h.step_ub j hj
    show opeStepStep e jb j ≤ endBias e.inst j + 1
    unfold opeStepStep
    by_cases hjj : j = jb
    · rw [if_pos hjj]
      subst hjj
      omega
    · rw [if_neg hjj]
      omega
  · -- sstatus_eq
    intro i hi
    show (schedStep e op ma jb i).status =
      if i < opeStepStep e jb (appertain e.inst i) then 1 else 0
    rw [schedStep_status]
    have hst := statusStep_sq h hjb hop hjfF i hi
    unfold statusStep at hst
    by_cases hio : i = op
    · rw [if_pos hio] at hst ⊢
      exact hst
    · rw [if_neg hio] at hst ⊢
      rw [h.sstatus_eq i hi, ← h.status_eq i hi]
      exact hst
  · -- finish_eq
    intro j hj
    show maskJFStep e jb j =
      decide (opeStepStep e jb j = endBias e.inst j + 1)
    unfold maskJFStep
    by_cases hx : opeStepStep e jb j = endBias e.inst j + 1
    · rw [if_pos hx, decide_eq_true hx]
    · have hold : e.opeStep j ≠ endBias e.inst j + 1 := by
        intro hcon
        by_cases hjj : j = jb
        · subst hjj
          omega
        · rw [opeStepStep_other e hjj] at hx
          exact hx hcon
      rw [if_neg hx, h.finish_eq j hj, decide_eq_false hold,
        decide_eq_false hx]
  · -- unsched_frozen
    intro i hi hun
    simp only [stepSched_opeStep, stepSched_inst] at hun
    simp only [stepSched_procTimes, stepSched_opeMaAdj, stepSched_inst]
    have hio : i ≠ op := by
      intro hieq
      rw [hieq, happop, opeStepStep_self, ← hop] at hun
      omega
    have hunold : e.opeStep (appertain e.inst i) ≤ i :=
      le_trans (opeStep_le_opeStepStep e jb _) hun
    intro m
    have old := h.unsched_frozen i hi hunold m
    constructor
    · show procStep e op ma i m = _
      unfold procStep adjStep
      rw [if_neg hio, old.1, old.2]
      by_cases hpos : 0 < e.inst.procTimes0 i m
      · unfold adj0
        rw [if_pos hpos]
        push_cast
        ring
      · have h0 : e.inst.procTimes0 i m = 0 :=
          le_antisymm (not_lt.1 hpos) (h.wf.2.2.1 i m)
        unfold adj0
        rw [if_neg hpos, h0]
        push_cast
        ring
    · show adjStep e op ma i m = _
      unfold adjStep
      rw [if_neg hio]
      exact old.2
  · -- sched_pruned
    intro i hi hs
    simp only [stepSched_sched, stepSched_inst, stepSched_procTimes,
      stepSched_opeMaAdj]
    by_cases hio : i = op
    · simp only [hio]
      refine ⟨?_, ?_, ?_⟩
      · simp only [hmach_op]; exact hma
      · simp only [hmach_op]; rw [← hChosen]; exact hChosenPos
      · intro m
        constructor
        · simp only [hmach_op]
          unfold adjStep
          rw [if_pos rfl]
        · simp only [hmach_op]
          unfold procStep adjStep
          rw [if_pos rfl]
          by_cases hmm : m = ma
          · rw [if_pos hmm, if_pos hmm, hmm,
              (h.unsched_frozen op hopNo hopuns ma).1]
            push_cast
            ring
          · rw [if_neg hmm, if_neg hmm]
            push_cast
            ring
    · have hsold : i < e.opeStep (appertain e.inst i) := by
        rcases (hschedNew i hi).1 hs with hx | hx
        · exact absurd hx hio
        · exact hx
      obtain ⟨hm4, hp4, hall⟩ := h.sched_pruned i hi hsold
      refine ⟨?_, ?_, ?_⟩
      · simp only [hmach_old i hio]; exact hm4
      · simp only [hmach_old i hio]; exact hp4
      · intro m
        constructor
        · unfold adjStep
          rw [if_neg hio]
          simp only [hmach_old i hio]
          exact (hall m).1
        · unfold procStep adjStep
          rw [if_neg hio]
          simp only [hmach_old i hio]
          rw [(hall m).1, (hall m).2]
          by_cases hmm : m = (e.sched i).mach
          · simp [hmm]
          · simp [hmm]
  · -- proc_oob
    intro i m hoob
    show procStep e op ma i m = 0
    unfold procStep
    rw [h.proc_oob i m hoob, zero_mul]
  · -- fproc_sched
    intro i hi hs
    simp only [stepSched_featProc, stepSched_inst, stepSched_sched]
    by_cases hio : i = op
    · subst hio
      rw [hmach_op]
      unfold featProcStep
      rw [if_pos rfl]
      exact hChosen
    · have hsold : i < e.opeStep (appertain e.inst i) := by
        rcases (hschedNew i hi).1 hs with hx | hx
        · exact absurd hx hio
        · exact hx
      rw [hfp_old i hio, hmach_old i hio]
      exact h.fproc_sched i hi hsold
  · -- fproc_unsched
    intro i hi hun
    simp only [stepSched_opeStep, stepSched_inst] at hun
    have hio : i ≠ op := by
      intro hieq
      rw [hieq, happop, opeStepStep_self, ← hop] at hun
      omega
    have hunold : e.opeStep (appertain e.inst i) ≤ i :=
      le_trans (opeStep_le_opeStepStep e jb _) hun
    show featProcStep e op ma i = _
    rw [hfp_old i hio]
    exact h.fproc_unsched i hi hunold
  · -- mmask_eq
    intro m hm
    show maskMPStep e ma m = !(machinesStep e op ma jb m).idle
    rw [machinesStep_idle]
    unfold maskMPStep
    by_cases hmm : m = ma
    · rw [if_pos hmm, if_pos hmm]
      rfl
    · rw [if_neg hmm, if_neg hmm]
      exact h.mmask_eq m hm
  · -- idle_avail
    intro m hm hidle
    simp only [stepSched_machines] at hidle
    rw [machinesStep_idle] at hidle
    show (machinesStep e op ma jb m).avail ≤ e.time
    rw [machinesStep_avail]
    by_cases hmm : m = ma
    · rw [if_pos hmm] at hidle
      cases hidle
    · rw [if_neg hmm] at hidle ⊢
      exact h.idle_avail m hm hidle
  · -- busy_avail
    intro m hm hbusy
    simp only [stepSched_machines] at hbusy
    rw [machinesStep_idle] at hbusy
    show e.time < (machinesStep e op ma jb m).avail
    rw [machinesStep_avail]
    by_cases hmm : m = ma
    · rw [if_pos hmm]
      linarith
    · rw [if_neg hmm] at hbusy ⊢
      exact h.busy_avail m hm hbusy
  · -- busy_job
    intro m hm hbusy
    simp only [stepSched_machines] at hbusy
    rw [machinesStep_idle] at hbusy
    simp only [stepSched_machines, stepSched_maskJobProcing, stepSched_inst,
      stepSched_opeStep, stepSched_sched]
    by_cases hmm : m = ma
    · simp only [hmm]
      have hrecma : (machinesStep e op ma jb ma).jobRec = jb := by
        rw [machinesStep_jobRec, if_pos rfl]
      rw [hrecma]
      refine ⟨hjb, ?_, ?_, ?_, ?_⟩
      · unfold maskJPStep
        rw [if_pos rfl]
      · rw [opeStepStep_self]
        omega
      · rw [hself, hmach_op]
      · rw [hself, hstop_op, machinesStep_avail, if_pos rfl]
    · rw [if_neg hmm] at hbusy
      obtain ⟨hjr, hpr, hlb2, hmach2, hstop2⟩ := h.busy_job m hm hbusy
      have hj2ne : (e.machines m).jobRec ≠ jb := by
        intro hcon
        rw [hcon, hjpF] at hpr
        cases hpr
      obtain ⟨hkno, happk, hksch, _⟩ := h.lastSched hjr hlb2
      have hkneop : e.opeStep (e.machines m).jobRec - 1 ≠ op :=
        hnotop _ hksch
      have hrecm : (machinesStep e op ma jb m).jobRec =
          (e.machines m).jobRec := by
        rw [machinesStep_jobRec, if_neg hmm]
      rw [hrecm]
      refine ⟨hjr, ?_, ?_, ?_, ?_⟩
      · unfold maskJPStep
        rw [if_neg hj2ne]
        exact hpr
      · rw [opeStepStep_other e hj2ne]
        exact hlb2
      · rw [opeStepStep_other e hj2ne, hmach_old _ hkneop]
        exact hmach2
      · rw [opeStepStep_other e hj2ne, hstop_old _ hkno hkneop hksch,
          machinesStep_avail, if_neg hmm]
        exact hstop2
  · -- procing_busy
    intro j hj hjp
    simp only [stepSched_maskJobProcing] at hjp
    simp only [stepSched_machines, stepSched_inst, stepSched_opeStep,
      stepSched_sched]
    by_cases hjj : j = jb
    · subst hjj
      refine ⟨?_, ?_, ?_⟩
      · rw [opeStepStep_self]
        omega
      · rw [hself, hmach_op, machinesStep_idle, if_pos rfl]
      · rw [hself, hmach_op, machinesStep_jobRec, if_pos rfl]
    · have hold : e.maskJobProcing j = true := by
        unfold maskJPStep at hjp
        rw [if_neg hjj] at hjp
        exact hjp
      obtain ⟨hlb2, hbusy2, hrec2⟩ := h.procing_busy j hj hold
      obtain ⟨hkno, happk, hksch, hmachlt⟩ := h.lastSched hj hlb2
      have hkneop : e.opeStep j - 1 ≠ op := hnotop _ hksch
      have hmmne : (e.sched (e.opeStep j - 1)).mach ≠ ma := by
        intro hcon
        rw [hcon, hmidle] at hbusy2
        cases hbusy2
      refine ⟨?_, ?_, ?_⟩
      · rw [opeStepStep_other e hjj]
        exact hlb2
      · rw [opeStepStep_other e hjj, hmach_old _ hkneop, machinesStep_idle,
          if_neg hmmne]
        exact hbusy2
      · rw [opeStepStep_other e hjj, hmach_old _ hkneop,
          machinesStep_jobRec, if_neg hmmne]
        exact hrec2
  · -- end_le_avail
    intro i hi hs
    simp only [stepSched_sched, stepSched_machines]
    by_cases hio : i = op
    · subst hio
      rw [hmach_op, hstop_op, machinesStep_avail, if_pos rfl]
    · have hsold : i < e.opeStep (appertain e.inst i) := by
        rcases (hschedNew i hi).1 hs with hx | hx
        · exact absurd hx hio
        · exact hx
      rw [hstop_old i hi hio hsold, hmach_old i hio, machinesStep_avail]
      by_cases hmm : (e.sched i).mach = ma
      · rw [if_pos hmm]
        have hold := h.end_le_avail i hi hsold
        rw [hmm] at hold
        linarith
      · rw [if_neg hmm]
        exact h.end_le_avail i hi hsold
  · -- idle_job
    intro j hj hjp hlb2
    simp only [stepSched_maskJobProcing] at hjp
    simp only [stepSched_opeStep, stepSched_inst] at hlb2
    simp only [stepSched_sched, stepSched_opeStep, stepSched_time]
    have hjj : j ≠ jb := by
      intro hcon
      subst hcon
      unfold maskJPStep at hjp
      rw [if_pos rfl] at hjp
      cases hjp
    have holdmask : e.maskJobProcing j = false := by
      unfold maskJPStep at hjp
      rw [if_neg hjj] at hjp
      exact hjp
    rw [opeStepStep_other e hjj] at hlb2 ⊢
    obtain ⟨hkno, happk, hksch, _⟩ := h.lastSched hj hlb2
    have hkneop : e.opeStep j - 1 ≠ op := hnotop _ hksch
    rw [hstop_old _ hkno hkneop hksch]
    exact h.idle_job j hj holdmask hlb2
  · -- job_order
    intro j hj p hp1 hp2
    simp only [stepSched_inst] at hp1
    simp only [stepSched_opeStep] at hp2
    simp only [stepSched_sched]
    by_cases hjj : j = jb
    · subst hjj
      rw [opeStepStep_self] at hp2
      have hple : p + 1 ≤ e.opeStep j := by omega
      have hEno := endBias_lt_numOpes e.inst h.wf hj
      have hub := h.step_ub j hj
      have hpno : p < numOpes e.inst := by omega
      have happ : appertain e.inst p = j :=
        app_of_range e.inst h.wf hj hp1 (by omega)
      rcases eq_or_lt_of_le hple with hpeq | hplt
      · -- the pair (previous last scheduled, newly scheduled)
        have hps : p < e.opeStep (appertain e.inst p) := by
          rw [happ]
          omega
        have hpne : p ≠ op := hnotop _ hps
        have hpeq2 : e.opeStep j - 1 = p := by omega
        have hlbj : biases e.inst j < e.opeStep j := by omega
        have hidle2 := h.idle_job j hj hjpF hlbj
        rw [hpeq2] at hidle2
        have hp1op : p + 1 = op := by omega
        rw [hstop_old p hpno hpne hps, hp1op, hstart_op]
        exact hidle2
      · -- a pair of previously scheduled operations
        have hps : p < e.opeStep (appertain e.inst p) := by
          rw [happ]
          omega
        have hp1no : p + 1 < numOpes e.inst := by omega
        have happ1 : appertain e.inst (p + 1) = j :=
          app_of_range e.inst h.wf hj (by omega) (by omega)
        have hp1s : p + 1 < e.opeStep (appertain e.inst (p + 1)) := by
          rw [happ1]
          omega
        rw [hstop_old p hpno (hnotop _ hps) hps,
          hstart_old (p + 1) hp1no (hnotop _ hp1s) hp1s]
        exact h.job_order j hj p hp1 (by omega)
    · rw [opeStepStep_other e hjj] at hp2
      have hub := h.step_ub j hj
      have hEno := endBias_lt_numOpes e.inst h.wf hj
      have hpno : p < numOpes e.inst := by omega
      have hp1no : p + 1 < numOpes e.inst := by omega
      have happ : appertain e.inst p = j :=
        app_of_range e.inst h.wf hj hp1 (by omega)
      have happ1 : appertain e.inst (p + 1) = j :=
        app_of_range e.inst h.wf hj (by omega) (by omega)
      have hps : p < e.opeStep (appertain e.inst p) := by rw [happ]; omega
      have hp1s : p + 1 < e.opeStep (appertain e.inst (p + 1)) := by
        rw [happ1]
        omega
      rw [hstop_old p hpno (hnotop _ hps) hps,
        hstart_old (p + 1) hp1no (hnotop _ hp1s) hp1s]
      exact h.job_order j hj p hp1 hp2
  · -- ma_disjoint
    intro i hi i2 hi2 hs hs2 hne hmeq
    simp only [stepSched_sched] at hmeq
    simp only [stepSched_sched]
    by_cases hio : i = op
    · rw [hio] at hmeq ⊢
      by_cases hio2 : i2 = op
      · exact absurd (hio.trans hio2.symm) hne
      · have hsold2 : i2 < e.opeStep (appertain e.inst i2) := by
          rcases (hschedNew i2 hi2).1 hs2 with hx | hx
          · exact absurd hx hio2
          · exact hx
        rw [hmach_op, hmach_old i2 hio2] at hmeq
        have hstop2 := h.end_le_avail i2 hi2 hsold2
        rw [← hmeq] at hstop2
        have hstle : (e.sched i2).stop ≤ e.time := le_trans hstop2 havle
        have hsp : (e.sched i2).start < (e.sched i2).stop := by
          rw [h.sstart_eq i2, h.sstop_eq i2]
          have := h.fproc_pos hi2 hsold2
          linarith
        rw [hstart_op, hstart_old i2 hi2 hio2 hsold2, hstop_op]
        constructor
        · intro hcon
          linarith
        · intro hcon
          linarith
    · have hsold : i < e.opeStep (appertain e.inst i) := by
        rcases (hschedNew i hi).1 hs with hx | hx
        · exact absurd hx hio
        · exact hx
      by_cases hio2 : i2 = op
      · rw [hio2] at hmeq ⊢
        rw [hmach_old i hio, hmach_op] at hmeq
        have hstop1 := h.end_le_avail i hi hsold
        rw [hmeq] at hstop1
        have hstle : (e.sched i).stop ≤ e.time := le_trans hstop1 havle
        have hsp : (e.sched i).start < (e.sched i).stop := by
          rw [h.sstart_eq i, h.sstop_eq i]
          have := h.fproc_pos hi hsold
          linarith
        rw [hstart_op, hstart_old i hi hio hsold, hstop_old i hi hio hsold]
        constructor
        · intro hcon
          linarith
        · intro hcon
          linarith
      · have hsold2 : i2 < e.opeStep (appertain e.inst i2) := by
          rcases (hschedNew i2 hi2).1 hs2 with hx | hx
          · exact absurd hx hio2
          · exact hx
        rw [hmach_old i hio, hmach_old i2 hio2] at hmeq
        rw [hstart_old i hi hio hsold, hstart_old i2 hi2 hio2 hsold2,
          hstop_old i hi hio hsold]
        exact h.ma_disjoint i hi i2 hi2 hsold hsold2 hne hmeq
  · -- utilizT_nonneg
    intro m hm
    show (0 : ℚ) ≤ (machinesStep e op ma jb m).utilizT
    rw [machinesStep_utilizT]
    by_cases hmm : m = ma
    · rw [if_pos hmm]
      have := h.utilizT_nonneg m hm
      linarith
    · rw [if_neg hmm]
      exact h.utilizT_nonneg m hm

/-- The freshly constructed environment satisfies the invariant. -/
theorem Inv_init {I : Inst} (hwf : WF I) : Inv (initEnv I) := by
  have hnocond : ∀ p, ¬ (p + 1 < biases I (appertain I p)) := by
    intro p
    rcases lt_or_le p (numOpes I) with hp | hp
    · obtain ⟨_, h1, _⟩ := app_mem I hwf hp
      omega
    · rw [appertain_ge I hp]
      have : biases I I.numJobs = numOpes I := rfl
      omega
  refine
    { wf := hwf
      step_lb := fun j _ => le_rfl
      step_ub := ?_
      status_eq := ?_
      sstatus_eq := ?_
      finish_eq := ?_
      done_eq := rfl
      unsched_frozen := fun i _ _ m => ⟨rfl, rfl⟩
      sched_pruned := ?_
      proc_oob := fun i m hoob => hwf.2.2.2.2 i m hoob
      cal_eq := ?_
      fproc_sched := ?_
      fproc_unsched := fun i _ _ => rfl
      sstart_eq := fun i => rfl
      sstop_eq := fun i => rfl
      fstart_est := ?_
      fjobend_eq := fun i _ => rfl
      time_nonneg := le_rfl
      mmask_eq := fun m _ => rfl
      idle_avail := fun m _ _ => le_rfl
      busy_avail := ?_
      busy_job := ?_
      procing_busy := ?_
      end_le_avail := ?_
      idle_job := ?_
      job_order := ?_
      ma_disjoint := ?_
      utilizT_nonneg := fun m _ => le_rfl }
  · -- step_ub
    intro j hj
    show biases I j ≤ endBias I j + 1
    have := hwf.2.1 j hj
    unfold endBias
    omega
  · -- status_eq
    intro i hi
    simp only [initEnv_inst, initEnv_opeStep] at *
    obtain ⟨_, h1, _⟩ := app_mem I hwf hi
    show (0 : ℚ) = _
    rw [if_neg (by omega)]
  · -- sstatus_eq
    intro i hi
    simp only [initEnv_inst, initEnv_opeStep] at *
    obtain ⟨_, h1, _⟩ := app_mem I hwf hi
    show (0 : ℚ) = _
    rw [if_neg (by omega)]
  · -- finish_eq
    intro j hj
    show false = decide (biases I j = endBias I j + 1)
    have h1 := hwf.2.1 j hj
    have : biases I j ≠ endBias I j + 1 := by
      unfold endBias
      omega
    rw [decide_eq_false this]
  · -- sched_pruned
    intro i hi hs
    obtain ⟨_, h1, _⟩ := app_mem I hwf hi
    have : ¬ (i < biases I (appertain I i)) := by omega
    exact absurd hs this
  · -- cal_eq
    intro p o
    simp only [initEnv_inst, initEnv_opeStep]
    show A0 I p o = _
    rw [if_neg (hnocond p)]
  · -- fproc_sched
    intro i hi hs
    obtain ⟨_, h1, _⟩ := app_mem I hwf hi
    have : ¬ (i < biases I (appertain I i)) := by omega
    exact absurd hs this
  · -- fstart_est
    intro o ho hun
    simp only [initEnv_inst, initEnv_opeStep, initEnv_featProc] at *
    obtain ⟨hjlt, h1, h2⟩ := app_mem I hwf ho
    show initFeatStart I o = _
    have hbase : schedBase (initEnv I) (appertain I o) = 0 := by
      unfold schedBase
      rw [if_neg (by show ¬ (biases I _ < biases I _); omega)]
    rw [hbase, zero_add]
    unfold initFeatStart
    have hcongr : ∀ p ∈ Finset.range (numOpes I),
        initFeatProc I p * A0 I p o =
        initFeatProc I p *
          (if p + 1 < biases I (appertain I p) then 0 else A0 I p o) := by
      intro p _
      rw [if_neg (hnocond p)]
    rw [Finset.sum_congr rfl hcongr,
      sum_indicator_window I hwf _ (biases I) hjlt rfl h1 h2 le_rfl]
    have hmax : max (biases I (appertain I o))
        (biases I (appertain I o) - 1) = biases I (appertain I o) := by
      omega
    rw [hmax]
  · -- busy_avail
    intro m _ hbusy
    cases hbusy
  · -- busy_job
    intro m _ hbusy
    cases hbusy
  · -- procing_busy
    intro j _ hpr
    cases hpr
  · -- end_le_avail
    intro i hi hs
    obtain ⟨_, h1, _⟩ := app_mem I hwf hi
    have : ¬ (i < biases I (appertain I i)) := by omega
    exact absurd hs this
  · -- idle_job
    intro j _ _ hlb
    simp only [initEnv_inst, initEnv_opeStep] at hlb
    exact absurd hlb (by omega)
  · -- job_order
    intro j hj p hp1 hp2
    simp only [initEnv_inst, initEnv_opeStep] at hp1 hp2
    exact absurd hp2 (by omega)
  · -- ma_disjoint
    intro i hi i2 hi2 hs _ _ _
    obtain ⟨_, h1, _⟩ := app_mem I hwf hi
    have : ¬ (i < biases I (appertain I i)) := by omega
    exact absurd hs this

/-- The time-advance loop preserves the invariant (its guard coincides with
the transition flag of the `next_time` rounds it performs). -/
theorem Inv_advanceLoop {e : Env} (h : Inv e) (n : ℕ) :
    Inv (advanceLoop n e) := by
  induction n generalizing e with
  | zero => exact h
  | succ n ih =>
    unfold advanceLoop
    split
    · exact ih (Inv_nextTime h)
    · exact h

/-- Replacing the active flag and snapshot leaves the invariant intact
(no clause mentions them). -/
theorem Inv_set_active_snap {e : Env} (h : Inv e) (act : Bool)
    (s : EnvState) : Inv { e with active := act, snap := s } := by
  cases h
  constructor <;> assumption

/-- A full `step` with a legal decision preserves the invariant. -/
theorem Inv_step {e : Env} {a : Action} (h : Inv e) (hl : Legal e a) :
    Inv (step e a) :=
  Inv_set_active_snap (Inv_advanceLoop (Inv_stepSched h hl) _) _ _

/-- Every reachable state satisfies the invariant. -/
theorem Reach_Inv {e : Env} (hr : Reach e) : Inv e := by
  induction hr with
  | init I hwf => exact Inv_init hwf
  | step a _ hl ih => exact Inv_step ih hl
  | tick _ ih => exact Inv_nextTime ih

/-- Fields `next_time` does not write are carried through the time-advance
loop unchanged. -/
theorem advanceLoop_frame (n : ℕ) (e : Env) :
    (advanceLoop n e).inst = e.inst ∧ (advanceLoop n e).sched = e.sched ∧
    (advanceLoop n e).opeStep = e.opeStep ∧
    (advanceLoop n e).procTimes = e.procTimes ∧
    (advanceLoop n e).opeMaAdj = e.opeMaAdj ∧
    (advanceLoop n e).makespan = e.makespan ∧
    (advanceLoop n e).rewardB = e.rewardB ∧
    (advanceLoop n e).doneB = e.doneB ∧
    (advanceLoop n e).nCount = e.nCount ∧
    (advanceLoop n e).featProc = e.featProc ∧
    (advanceLoop n e).featStart = e.featStart ∧
    (advanceLoop n e).featJobEnd = e.featJobEnd := by
  induction n generalizing e with
  | zero => exact ⟨rfl, rfl, rfl, rfl, rfl, rfl, rfl, rfl, rfl, rfl, rfl, rfl⟩
  | succ n ih =>
    unfold advanceLoop
    split
    · exact ih (nextTime e (ifNoEligible e))
    · exact ⟨rfl, rfl, rfl, rfl, rfl, rfl, rfl, rfl, rfl, rfl, rfl, rfl⟩

theorem step_inst (e : Env) (a : Action) : (step e a).inst = e.inst :=
  (advanceLoop_frame _ _).1

theorem step_sched (e : Env) (a : Action) :
    (step e a).sched = schedStep e a.1 a.2.1 a.2.2 :=
  (advanceLoop_frame _ _).2.1

theorem step_opeStep (e : Env) (a : Action) :
    (step e a).opeStep = opeStepStep e a.2.2 :=
  (advanceLoop_frame _ _).2.2.1

theorem step_procTimes (e : Env) (a : Action) :
    (step e a).procTimes = procStep e a.1 a.2.1 :=
  (advanceLoop_frame _ _).2.2.2.1

theorem step_makespan (e : Env) (a : Action) :
    (step e a).makespan = maxValStep e a.1 a.2.1 a.2.2 :=
  (advanceLoop_frame _ _).2.2.2.2.2.1

theorem step_rewardB (e : Env) (a : Action) :
    (step e a).rewardB = e.makespan - maxValStep e a.1 a.2.1 a.2.2 :=
  (advanceLoop_frame _ _).2.2.2.2.2.2.1

/-- The construction-time deep copies (and the instance itself) are never
written after `__init__`. -/
def Frozen (e e' : Env) : Prop :=
  e'.inst = e.inst ∧ e'.oldProcTimes = e.oldProcTimes ∧
  e'.oldOpeMaAdj = e.oldOpeMaAdj ∧ e'.oldCalCumulAdj = e.oldCalCumulAdj ∧
  e'.oldFeatStatus = e.oldFeatStatus ∧ e'.oldFeatNumMas = e.oldFeatNumMas ∧
  e'.oldFeatProc = e.oldFeatProc ∧ e'.oldFeatUnsched = e.oldFeatUnsched ∧
  e'.oldFeatJobEnd = e.oldFeatJobEnd ∧ e'.oldFeatStart = e.oldFeatStart ∧
  e'.oldFeatMaNumOpes = e.oldFeatMaNumOpes ∧
  e'.oldFeatMaAvail = e.oldFeatMaAvail ∧
  e'.oldFeatMaUtiliz = e.oldFeatMaUtiliz ∧ e'.oldSnap = e.oldSnap

theorem Frozen_refl (e : Env) : Frozen e e :=
  ⟨rfl, rfl, rfl, rfl, rfl, rfl, rfl, rfl, rfl, rfl, rfl, rfl, rfl, rfl⟩

theorem Frozen_trans {e1 e2 e3 : Env} (h : Frozen e1 e2)
    (h' : Frozen e2 e3) : Frozen e1 e3 := by
  obtain ⟨a1, a2, a3, a4, a5, a6, a7, a8, a9, a10, a11, a12, a13, a14⟩ := h
  obtain ⟨b1, b2, b3, b4, b5, b6, b7, b8, b9, b10, b11, b12, b13, b14⟩ := h'
  exact ⟨b1.trans a1, b2.trans a2, b3.trans a3, b4.trans a4, b5.trans a5,
    b6.trans a6, b7.trans a7, b8.trans a8, b9.trans a9, b10.trans a10,
    b11.trans a11, b12.trans a12, b13.trans a13, b14.trans a14⟩

theorem Frozen_advanceLoop (n : ℕ) (e : Env) : Frozen e (advanceLoop n e) := by
  induction n generalizing e with
  | zero => exact Frozen_refl e
  | succ n ih =>
    unfold advanceLoop
    split
    · exact Frozen_trans (Frozen_refl _) (ih (nextTime e (ifNoEligible e)))
    · exact Frozen_refl e

theorem Frozen_step (e : Env) (a : Action) : Frozen e (step e a) :=
  Frozen_advanceLoop e.inst.numMas (stepSched e a)

theorem Frozen_runCalls (e : Env) (calls : List Call) :
    Frozen e (runCalls e calls) := by
  induction calls generalizing e with
  | nil => exact Frozen_refl e
  | cons c rest ih =>
    cases c with
    | none => exact Frozen_trans (Frozen_refl _) (ih (nextTime e (ifNoEligible e)))
    | some a => exact Frozen_trans (Frozen_step e a) (ih (step e a))

/-- The number of busy machines of the slot (the loop variant of the
time-advance loop). -/
def busyCount (e : Env) : ℕ :=
  ((Finset.range e.inst.numMas).filter
    (fun m => (e.machines m).idle = false)).card

theorem busyCount_le (e : Env) : busyCount e ≤ e.inst.numMas := by
  calc busyCount e ≤ (Finset.range e.inst.numMas).card :=
        Finset.card_filter_le _ _
    _ = e.inst.numMas := Finset.card_range _

/-- A `next_time` round on a stalled, unfinished slot strictly decreases
the number of busy machines: machines only get freed, and the one whose
available time attains the minimum is freed. -/
theorem busyCount_nextTime_lt {e : Env} (h : Inv e)
    (hg : stallGuard e = true) :
    busyCount (nextTime e (ifNoEligible e)) < busyCount e := by
  have hz : ifNoEligible e = 0 ∧ e.doneB = false := by
    unfold stallGuard at hg
    rcases hdb : e.doneB with _ | _
    · rw [hdb] at hg
      simp only [Bool.and_eq_true, decide_eq_true_eq] at hg
      exact ⟨hg.1, rfl⟩
    · rw [hdb] at hg
      simp at hg
  obtain ⟨_, m0, hm0, hd0, hbusy0, _⟩ := stall_cOf h hz.1 hz.2
  apply Finset.card_lt_card
  constructor
  · intro m hm
    simp only [busyCount, Finset.mem_filter, Finset.mem_range,
      nextTime_inst] at hm ⊢
    refine ⟨hm.1, ?_⟩
    have := hm.2
    rw [nextTime_machines] at this
    unfold machinesNext at this
    split at this
    · cases this
    · exact this
  · intro hsub
    have hmem : m0 ∈ (Finset.range e.inst.numMas).filter
        (fun m => (e.machines m).idle = false) :=
      Finset.mem_filter.2 ⟨Finset.mem_range.2 hm0, hbusy0⟩
    have := hsub hmem
    simp only [Finset.mem_filter, Finset.mem_range, nextTime_inst,
      nextTime_machines] at this
    have h2 := this.2
    unfold machinesNext at h2
    rw [if_pos hd0] at h2
    cases h2

/-- Once the guard is off, the loop body is never applied again: any extra
fuel is irrelevant. -/
theorem advanceLoop_stable {e : Env} (hg : stallGuard e = false) (k : ℕ) :
    advanceLoop k e = e := by
  cases k with
  | zero => rfl
  | succ k =>
    unfold advanceLoop
    rw [hg]
    simp

/-- Enough fuel to cover the busy machines drives the guard to false. -/
theorem advanceLoop_exits {e : Env} (h : Inv e) {n : ℕ}
    (hn : busyCount e ≤ n) : stallGuard (advanceLoop n e) = false := by
  induction n generalizing e with
  | zero =>
    show stallGuard e = false
    rcases hg : stallGuard e with _ | _
    · rfl
    · have hz : ifNoEligible e = 0 ∧ e.doneB = false := by
        unfold stallGuard at hg
        rcases hdb : e.doneB with _ | _
        · rw [hdb] at hg
          simp only [Bool.and_eq_true, decide_eq_true_eq] at hg
          exact ⟨hg.1, rfl⟩
        · rw [hdb] at hg
          simp at hg
      obtain ⟨m, hm, hbusy⟩ := busy_exists h hz.1 hz.2
      have hmem : m ∈ (Finset.range e.inst.numMas).filter
          (fun m => (e.machines m).idle = false) :=
        Finset.mem_filter.2 ⟨Finset.mem_range.2 hm, hbusy⟩
      have : 0 < busyCount e := Finset.card_pos.2 ⟨m, hmem⟩
      omega
  | succ n ih =>
    unfold advanceLoop
    split
    · next hg =>
      have hlt := busyCount_nextTime_lt h hg
      exact ih (Inv_nextTime h) (by omega)
    · next hg =>
      rcases hg2 : stallGuard e with _ | _
      · rfl
      · exact absurd hg2 hg

theorem advanceLoop_succ (n : ℕ) (e : Env) :
    advanceLoop (n + 1) e =
      if stallGuard e then advanceLoop n (nextTime e (ifNoEligible e))
      else e := rfl

/-- Fuel beyond the exit point does not change the loop's result. -/
theorem advanceLoop_add {n : ℕ} {e : Env}
    (h : stallGuard (advanceLoop n e) = false) (k : ℕ) :
    advanceLoop (n + k) e = advanceLoop n e := by
  induction n generalizing e with
  | zero =>
    rw [Nat.zero_add]
    exact advanceLoop_stable h k
  | succ n ih =>
    have hrw : n + 1 + k = (n + k) + 1 := by omega
    rw [hrw, advanceLoop_succ, advanceLoop_succ]
    rcases hg : stallGuard e with _ | _
    · rfl
    · rw [if_pos rfl, if_pos rfl]
      apply ih
      rw [advanceLoop_succ, hg, if_pos rfl] at h
      exact h

/-- A bare `next_time` round never moves the clock backwards on an
invariant-satisfying slot. -/
theorem nextTime_time_mono {e : Env} (h : Inv e) :
    e.time ≤ (nextTime e (ifNoEligible e)).time := by
  rw [nextTime_time]
  unfold timeNext
  split
  · next hnt =>
    obtain ⟨hz, hnd⟩ := needTrans_true_elim hnt
    exact le_of_lt (stall_cOf h hz hnd).1
  · exact le_rfl

/-- The time-advance loop never moves the clock backwards. -/
theorem advanceLoop_time_mono {e : Env} (h : Inv e) (n : ℕ) :
    e.time ≤ (advanceLoop n e).time := by
  induction n generalizing e with
  | zero => exact le_rfl
  | succ n ih =>
    unfold advanceLoop
    split
    · exact le_trans (nextTime_time_mono h) (ih (Inv_nextTime h))
    · exact le_rfl

/-- A full `step` never moves the clock backwards. -/
theorem step_time_mono {e : Env} {a : Action} (h : Inv e) (hl : Legal e a) :
    e.time ≤ (step e a).time := by
  show e.time ≤ (advanceLoop e.inst.numMas (stepSched e a)).time
  have : e.time = (stepSched e a).time := rfl
  rw [this]
  exact advanceLoop_time_mono (Inv_stepSched h hl) _

/-- On a done slot every job's pointer is one past its last operation. -/
theorem done_opeStep {e : Env} (h : Inv e) (hd : e.doneB = true) :
    ∀ j < e.inst.numJobs, e.opeStep j = endBias e.inst j + 1 := by
  intro j hj
  have hd' := hd
  rw [h.done_eq, List.all_eq_true] at hd'
  have hf := hd' j (List.mem_range.2 hj)
  rw [h.finish_eq j hj] at hf
  exact of_decide_eq_true hf

/-- On a done slot every operation is scheduled. -/
theorem done_sched {e : Env} (h : Inv e) (hd : e.doneB = true) {i : ℕ}
    (hi : i < numOpes e.inst) : i < e.opeStep (appertain e.inst i) := by
  obtain ⟨hj, h1, h2⟩ := app_mem e.inst h.wf hi
  rw [done_opeStep h hd _ hj]
  omega

theorem ganttSorted_mem (e : Env) (m i : ℕ) :
    i ∈ ganttSorted e m ↔ i < numOpes e.inst ∧ (e.sched i).mach = m := by
  unfold ganttSorted
  rw [(List.mergeSort_perm _ _).mem_iff]
  unfold ganttOps
  rw [List.mem_filter, List.mem_range]
  simp only [decide_eq_true_eq]

theorem ganttSorted_nodup (e : Env) (m : ℕ) : (ganttSorted e m).Nodup := by
  unfold ganttSorted
  exact (List.mergeSort_perm _ _).nodup_iff.2 ((List.nodup_range _).filter _)

theorem ganttSorted_sorted (e : Env) (m : ℕ) :
    (ganttSorted e m).Pairwise
      (fun i i2 => (decide ((e.sched i).start ≤ (e.sched i2).start)) = true) := by
  unfold ganttSorted
  apply List.sorted_mergeSort
  · intro a b c hab hbc
    simp only [decide_eq_true_eq] at *
    exact le_trans hab hbc
  · intro a b
    simp only [Bool.or_eq_true, decide_eq_true_eq]
    exact le_total _ _

/-- Consecutive entries of a sorted gantt row never overlap on a done
slot: machine-disjointness plus sortedness. -/
theorem flagMaOverlapM_done {e : Env} (h : Inv e) (hd : e.doneB = true)
    (m : ℕ) : flagMaOverlapM e m = 0 := by
  unfold flagMaOverlapM
  apply List.countP_eq_zero.2
  intro t ht
  rw [List.mem_range] at ht
  have ht1 : t < (ganttSorted e m).length := by omega
  have ht2 : t + 1 < (ganttSorted e m).length := by omega
  rw [List.getD_eq_getElem _ 0 ht1, List.getD_eq_getElem _ 0 ht2]
  simp only [decide_eq_true_eq, not_lt]
  have hx := (ganttSorted_mem e m _).1 (List.getElem_mem ht1)
  have hy := (ganttSorted_mem e m _).1 (List.getElem_mem ht2)
  have hne : (ganttSorted e m)[t] ≠ (ganttSorted e m)[t + 1] := by
    intro he
    have := ((ganttSorted_nodup e m).getElem_inj_iff).1 he
    omega
  have hsorted := ganttSorted_sorted e m
  rw [List.pairwise_iff_get] at hsorted
  have hrel := hsorted ⟨t, ht1⟩ ⟨t + 1, ht2⟩ (by exact Nat.lt_succ_self t)
  simp only [List.get_eq_getElem, decide_eq_true_eq] at hrel
  have hdisj := h.ma_disjoint _ hx.1 _ hy.1 (done_sched h hd hx.1)
    (done_sched h hd hy.1) hne (hx.2.trans hy.2.symm)
  exact hdisj.2 (lt_of_le_of_ne hrel hdisj.1)

/-- Every checked entry of a sorted gantt row has the declared duration on
a done slot. -/
theorem flagProcTimeM_done {e : Env} (h : Inv e) (hd : e.doneB = true)
    (m : ℕ) : flagProcTimeM e m = 0 := by
  unfold flagProcTimeM
  apply List.countP_eq_zero.2
  intro t ht
  rw [List.mem_range] at ht
  have ht1 : t < (ganttSorted e m).length := by omega
  rw [List.getD_eq_getElem _ 0 ht1]
  simp only [decide_eq_true_eq, not_not]
  have hx := (ganttSorted_mem e m _).1 (List.getElem_mem ht1)
  have hsch := done_sched h hd hx.1
  have hstop := h.sstop_eq (ganttSorted e m)[t]
  have hstart := h.sstart_eq (ganttSorted e m)[t]
  have hfp := h.fproc_sched _ hx.1 hsch
  have hpr := ((h.sched_pruned _ hx.1 hsch).2.2 m).2
  rw [if_pos hx.2.symm] at hpr
  rw [hstop, hstart, hpr, hfp, hx.2]
  ring

/-- Consecutive operations of a job never overlap on a done slot. -/
theorem flagOpeOverlapJ_done {e : Env} (h : Inv e) (hd : e.doneB = true)
    {j : ℕ} (hj : j < e.inst.numJobs) : flagOpeOverlapJ e j = 0 := by
  unfold flagOpeOverlapJ
  split
  · rfl
  · next hgt =>
    apply List.countP_eq_zero.2
    intro t ht
    rw [List.mem_range] at ht
    simp only [decide_eq_true_eq, not_lt]
    apply h.job_order j hj (biases e.inst j + t) (by omega)
    rw [done_opeStep h hd j hj]
    unfold endBias
    have := h.wf.2.1 j hj
    omega

/-- Every operation counts as scheduled on a done slot. -/
theorem flagUnscheduled_done {e : Env} (h : Inv e) (hd : e.doneB = true) :
    flagUnscheduled e = 0 := by
  unfold flagUnscheduled
  rw [if_pos]
  have hall : (List.range (numOpes e.inst)).countP
      (fun i => decide ((e.sched i).status = 1)) =
      (List.range (numOpes e.inst)).length := by
    apply List.countP_eq_length.2
    intro i hi
    rw [List.mem_range] at hi
    have := h.sstatus_eq i hi
    rw [if_pos (done_sched h hd hi)] at this
    simpa using this
  rw [hall, List.length_range]

/-- A done slot passes the validator. -/
theorem validate_pass {e : Env} (h : Inv e) (hd : e.doneB = true) :
    (validateGantt e).1 = true := by
  have h1 : flagMaOverlap e = 0 :=
    Finset.sum_eq_zero fun m _ => flagMaOverlapM_done h hd m
  have h2 : flagOpeOverlap e = 0 :=
    Finset.sum_eq_zero fun j hj =>
      flagOpeOverlapJ_done h hd (Finset.mem_range.1 hj)
  have h3 : flagProcTime e = 0 :=
    Finset.sum_eq_zero fun m _ => flagProcTimeM_done h hd m
  have h4 : flagUnscheduled e = 0 := flagUnscheduled_done h hd
  show decide _ = true
  rw [h1, h2, h3, h4]
  rfl

/-- Per-round rewards telescope against the makespan baseline on any run. -/
theorem rewards_telescope (e : Env) (calls : List Call) :
    (rewardsOf e calls).sum = e.makespan - (runCalls e calls).makespan := by
  induction calls generalizing e with
  | nil =>
    show (0 : ℚ) = e.makespan - e.makespan
    ring
  | cons c rest ih =>
    cases c with
    | none =>
      show (rewardsOf (nextTime e (ifNoEligible e)) rest).sum = _
      rw [ih (nextTime e (ifNoEligible e))]
      rfl
    | some a =>
      show (step e a).rewardB + (rewardsOf (step e a) rest).sum = _
      rw [ih (step e a), step_rewardB, step_makespan]
      show _ = e.makespan - (runCalls (step e a) rest).makespan
      ring

theorem getD_getD_nonneg (L : List (List ℚ)) (hL : ∀ r ∈ L, ∀ x ∈ r, 0 ≤ x)
    (i m : ℕ) : 0 ≤ (L.getD i []).getD m 0 := by
  rcases lt_or_le i L.length with hi | hi
  · rw [List.getD_eq_getElem _ _ hi]
    rcases lt_or_le m (L[i].length) with hm | hm
    · rw [List.getD_eq_getElem _ _ hm]
      exact hL _ (List.getElem_mem hi) _ (List.getElem_mem hm)
    · rw [List.getD_eq_default _ _ hm]
  · rw [List.getD_eq_default _ _ hi]
    simp

theorem getD_getD_oob (L : List (List ℚ)) (k : ℕ)
    (hlen : ∀ r ∈ L, r.length = k) (i m : ℕ) (h : L.length ≤ i ∨ k ≤ m) :
    (L.getD i []).getD m 0 = 0 := by
  rcases lt_or_le i L.length with hi | hi
  · rcases h with h | h
    · omega
    · rw [List.getD_eq_getElem _ _ hi]
      apply List.getD_eq_default
      rw [hlen _ (List.getElem_mem hi)]
      exact h
  · rw [List.getD_eq_default _ _ hi]
    simp

/-- A 2-job, 2-machine, 4-operation instance in the shape produced by the
data loader (`env/load_data.py` is not part of src/; the matrix layout is
modelled from the spec's input format: rows = operations, columns =
machines, zero = ineligible). -/
def scenInst : Inst where
  numJobs := 2
  numMas := 2
  numsOpe := fun _ => 2
  procTimes0 := fun i m =>
    ((([[3, 5], [4, 2], [2, 6], [5, 3]] : List (List ℚ)).getD i []).getD m 0)

theorem scenInst_numOpes : numOpes scenInst = 4 := by
  with_unfolding_all decide

theorem scenWF : WF scenInst := by
  refine ⟨by norm_num [scenInst], fun j _ => by norm_num [scenInst],
    ?_, ?_, ?_⟩
  · intro i m
    apply getD_getD_nonneg
    intro r hr x hx
    fin_cases hr <;> fin_cases hx <;> norm_num
  · intro i hi
    rw [scenInst_numOpes] at hi
    have hm : (0 : ℕ) < scenInst.numMas := by norm_num [scenInst]
    interval_cases i
    · exact ⟨0, hm, by with_unfolding_all decide⟩
    · exact ⟨0, hm, by with_unfolding_all decide⟩
    · exact ⟨0, hm, by with_unfolding_all decide⟩
    · exact ⟨0, hm, by with_unfolding_all decide⟩
  · intro i m hoob
    apply getD_getD_oob _ 2
    · intro r hr
      fin_cases hr <;> rfl
    · rcases hoob with h | h
      · left
        rw [scenInst_numOpes] at h
        simpa using h
      · right
        exact h

def sE1 : Env := step (initEnv scenInst) (0, 0, 0)

def sE2 : Env := step sE1 (2, 1, 1)

def sE3 : Env := step sE2 (1, 0, 0)

def sE4 : Env := step sE3 (3, 1, 1)

theorem sReach1 : Reach sE1 :=
  Reach.step _ (Reach.init scenInst scenWF) (by with_unfolding_all decide)

theorem sReach2 : Reach sE2 :=
  Reach.step _ sReach1 (by with_unfolding_all decide)

theorem sReach3 : Reach sE3 :=
  Reach.step _ sReach2 (by with_unfolding_all decide)

theorem sReach4 : Reach sE4 :=
  Reach.step _ sReach3 (by with_unfolding_all decide)

/-- A 1-job, 1-operation, 2-machine instance whose single operation is
ineligible on machine 1 (duration 0 there). -/
def instC4 : Inst where
  numJobs := 1
  numMas := 2
  numsOpe := fun _ => 1
  procTimes0 := fun i m =>
    ((([[3, 0]] : List (List ℚ)).getD i []).getD m 0)

/-- A 1-job, 2-operation, 1-machine instance for exercising the
validator's per-machine duration loop. -/
def instC5 : Inst where
  numJobs := 1
  numMas := 1
  numsOpe := fun _ => 2
  procTimes0 := fun i m =>
    ((([[3], [4]] : List (List ℚ)).getD i []).getD m 0)

/-- A schedule state over `instC5` whose machine-0 row, sorted by start
time, ends with an entry of duration `97` although the declared processing
time is `4`. -/
def envC5 : Env :=
  { initEnv instC5 with
    sched := fun i =>
      if i = 0 then ⟨1, 0, 0, 3⟩
      else if i = 1 then ⟨1, 0, 3, 100⟩ else ⟨0, 0, 0, 0⟩
    opeStep := fun _ => 2 }

/-- Either the time-advance loop was a no-op, or the machine-utilization
feature of its result satisfies the `next_time` recomputation formula
(denominator `time + 1e-5`). -/
theorem advanceLoop_utiliz (n : ℕ) (e : Env) :
    advanceLoop n e = e ∨
      ∀ m, (advanceLoop n e).featMaUtiliz m =
        min ((advanceLoop n e).machines m).utilizT (advanceLoop n e).time /
          ((advanceLoop n e).time + eps5) := by
  induction n generalizing e with
  | zero => exact Or.inl rfl
  | succ n ih =>
    rw [advanceLoop_succ]
    rcases hg : stallGuard e with _ | _
    · rw [if_neg Bool.false_ne_true]
      exact Or.inl rfl
    · rw [if_pos rfl]
      rcases ih (nextTime e (ifNoEligible e)) with heq | hf
      · rw [heq]
        exact Or.inr fun m => rfl
      · exact Or.inr hf

/-- Claim C1: starting from a freshly constructed well-formed instance,
after any sequence of legal decisions and bare time advances that sets the
done flag, `validate_gantt` returns a pass verdict. -/
theorem C1_completed_validates {e : Env} (hr : Reach e)
    (hd : e.doneB = true) : (validateGantt e).1 = true :=
  validate_pass (Reach_Inv hr) hd

/-- Witness for claim C1: the four-decision run of the 2-job 2-machine
scenario completes and passes the validator. -/
theorem C1_completed_validates_witness :
    sE4.doneB = true ∧ (validateGantt sE4).1 = true :=
  ⟨by with_unfolding_all decide,
    C1_completed_validates sReach4 (by with_unfolding_all decide)⟩

/-- Claim C2: over any run from a fresh environment, the per-round rewards
returned by `step` sum to the initial makespan minus the final makespan. -/
theorem C2_reward_telescopes (I : Inst) (calls : List Call) :
    (rewardsOf (initEnv I) calls).sum =
      (initEnv I).makespan - (runCalls (initEnv I) calls).makespan :=
  rewards_telescope (initEnv I) calls

/-- Restoring from the construction-time deep copies reproduces the fresh
environment in every component except the reward value, which `reset`
leaves at its last value. -/
theorem reset_eq_init {I : Inst} {e : Env} (hf : Frozen (initEnv I) e) :
    reset e = { initEnv I with rewardB := e.rewardB } := by
  obtain ⟨h0, h1, h2, h3, h4, h5, h6, h7, h8, h9, h10, h11, h12, h13⟩ := hf
  unfold reset
  apply Env.ext <;>
    first
      | rfl
      | (simp only [h0, h1, h2, h3, h4, h5, h6, h7, h8, h9, h10, h11, h12,
          h13, initEnv_inst]
         try rfl)

/-- Claim C3: after any number of rounds, `reset` restores every dynamic
state component (matrices, features, masks, schedule, machines, clock,
counter, makespan baseline, done flag, active flag, snapshot) to the value
of a freshly constructed environment on the same input. -/
theorem C3_reset_restores (I : Inst) (calls : List Call) :
    reset (runCalls (initEnv I) calls) =
      { initEnv I with rewardB := (runCalls (initEnv I) calls).rewardB } :=
  reset_eq_init (Frozen_runCalls (initEnv I) calls)

/-- Counterexample for claim C4: an assignment to a machine with duration
0 in the eligibility/duration matrix is not rejected by `step`: the
operation comes out recorded as scheduled, with duration 0. -/
theorem C4_counterexample :
    (initEnv instC4).procTimes 0 1 = 0 ∧
    ((step (initEnv instC4) (0, 1, 0)).sched 0).status = 1 ∧
    ((step (initEnv instC4) (0, 1, 0)).sched 0).stop -
      ((step (initEnv instC4) (0, 1, 0)).sched 0).start = 0 := by
  with_unfolding_all decide

/-- Claim C4 amended: the scheduling phase performs no eligibility check:
a decision whose pair has duration 0 in the current processing-time matrix
is accepted silently, marking the operation scheduled with duration 0 and
advancing the job's pointer. -/
theorem C4_amended_silent (e : Env) (op ma jb : ℕ)
    (h : e.procTimes op ma = 0) :
    ((stepSched e (op, ma, jb)).sched op).status = 1 ∧
    ((stepSched e (op, ma, jb)).sched op).stop -
      ((stepSched e (op, ma, jb)).sched op).start = 0 ∧
    (stepSched e (op, ma, jb)).opeStep jb = e.opeStep jb + 1 := by
  have hpc : procChosen e op ma = 0 := by
    unfold procChosen procStep adjStep
    rw [if_pos rfl, if_pos rfl, h]
    norm_num
  refine ⟨?_, ?_, ?_⟩
  · rw [stepSched_sched, schedStep_status, if_pos rfl]
  · rw [stepSched_sched, schedStep_stop, schedStep_start]
    have hfp : featProcStep e op ma op = procChosen e op ma := by
      unfold featProcStep
      rw [if_pos rfl]
    rw [hfp, hpc]
    ring
  · rw [stepSched_opeStep]
    exact opeStepStep_self e jb

/-- Witness for the amended claim C4, at the 1-operation instance with an
ineligible second machine. -/
theorem C4_amended_silent_witness :
    (initEnv instC4).procTimes 0 1 = 0 ∧
    ((stepSched (initEnv instC4) (0, 1, 0)).sched 0).status = 1 :=
  ⟨by with_unfolding_all decide,
    (C4_amended_silent (initEnv instC4) 0 1 0
      (by with_unfolding_all decide)).1⟩

/-- Claim C5 (code bug): the validator's duration loop stops before the
last start-sorted entry of each machine row, so a schedule whose last
entry on machine 0 has the wrong duration still passes; the schedule is
returned unmodified alongside the verdict. -/
theorem C5_last_entry_unchecked :
    ((envC5.sched 1).stop - (envC5.sched 1).start ≠ envC5.procTimes 1 0) ∧
    (validateGantt envC5).1 = true ∧
    (validateGantt envC5).2 = envC5.sched := by
  refine ⟨by with_unfolding_all decide, by with_unfolding_all decide, rfl⟩

/-- Claim C6: on any reachable state the clock is non-decreasing across a
`step` with a legal decision and across a bare `next_time` round. -/
theorem C6_clock_monotone {e : Env} (hr : Reach e) :
    (∀ a, Legal e a → e.time ≤ (step e a).time) ∧
      e.time ≤ (nextTime e (ifNoEligible e)).time :=
  ⟨fun _ hl => step_time_mono (Reach_Inv hr) hl,
    nextTime_time_mono (Reach_Inv hr)⟩

/-- Witness for claim C6 on the scenario instance's first decision and a
bare time advance. -/
theorem C6_clock_monotone_witness :
    (initEnv scenInst).time ≤ (step (initEnv scenInst) (0, 0, 0)).time ∧
    (initEnv scenInst).time ≤
      (nextTime (initEnv scenInst) (ifNoEligible (initEnv scenInst))).time :=
  ⟨(C6_clock_monotone (Reach.init scenInst scenWF)).1 (0, 0, 0)
      (by with_unfolding_all decide),
    (C6_clock_monotone (Reach.init scenInst scenWF)).2⟩

/-- Claim C7: from a reachable state, after any legal decision's
scheduling phase, the time-advance loop exits within `numMas` iterations:
with fuel `numMas` the guard is off, and any extra fuel changes nothing. -/
theorem C7_advance_terminates {e : Env} {a : Action} (hr : Reach e)
    (hl : Legal e a) :
    stallGuard (advanceLoop e.inst.numMas (stepSched e a)) = false ∧
    ∀ k, advanceLoop (e.inst.numMas + k) (stepSched e a) =
      advanceLoop e.inst.numMas (stepSched e a) := by
  have hInv := Inv_stepSched (Reach_Inv hr) hl
  have hg : stallGuard (advanceLoop e.inst.numMas (stepSched e a)) = false :=
    advanceLoop_exits hInv (busyCount_le (stepSched e a))
  exact ⟨hg, fun k => advanceLoop_add hg k⟩

/-- Witness for claim C7 on the scenario instance's first decision. -/
theorem C7_advance_terminates_witness :
    Legal (initEnv scenInst) (0, 0, 0) ∧
    stallGuard (advanceLoop (initEnv scenInst).inst.numMas
      (stepSched (initEnv scenInst) (0, 0, 0))) = false :=
  ⟨by with_unfolding_all decide,
    (C7_advance_terminates (Reach.init scenInst scenWF)
      (by with_unfolding_all decide)).1⟩

/-- Claim C8: on any reachable state, an operation recorded as scheduled
has its adjacency row equal to the indicator of its recorded machine, and
its processing-time row vanishes on every other machine. -/
theorem C8_row_pruned {e : Env} (hr : Reach e) {i : ℕ}
    (hi : i < numOpes e.inst) (hs : (e.sched i).status = 1) :
    (∀ m, e.opeMaAdj i m = if m = (e.sched i).mach then 1 else 0) ∧
    (∀ m, m ≠ (e.sched i).mach → e.procTimes i m = 0) := by
  have h := Reach_Inv hr
  have hsch : i < e.opeStep (appertain e.inst i) := by
    by_contra hcon
    push_neg at hcon
    have hst := h.sstatus_eq i hi
    rw [if_neg (by omega)] at hst
    rw [hst] at hs
    norm_num at hs
  have hp := h.sched_pruned i hi hsch
  refine ⟨fun m => (hp.2.2 m).1, fun m hm => ?_⟩
  rw [(hp.2.2 m).2, if_neg hm]

/-- Witness for claim C8 after the scenario's first decision. -/
theorem C8_row_pruned_witness :
    (0 < numOpes sE1.inst ∧ (sE1.sched 0).status = 1) ∧
    ∀ m, sE1.opeMaAdj 0 m = if m = (sE1.sched 0).mach then 1 else 0 :=
  ⟨⟨by with_unfolding_all decide, by with_unfolding_all decide⟩,
    (C8_row_pruned sReach1 (by with_unfolding_all decide)
      (by with_unfolding_all decide)).1⟩

/-- Counterexample for claim C9: a reachable state (two decisions into the
scenario run) with a strictly positive clock whose machine-utilization
feature differs from min(busy, clock)/clock — the code divides by
clock + 1e-5, not by clock. -/
theorem C9_counterexample :
    0 < sE2.time ∧
    sE2.featMaUtiliz 0 ≠
      min (sE2.machines 0).utilizT sE2.time / sE2.time := by
  with_unfolding_all decide

/-- Claim C9 amended: after a `next_time` round the utilization feature is
min(busy, clock)/(clock + 1e-5); after a `step` it is of that shape with
epsilon 1e-9 (no loop iteration) or 1e-5 (loop ran); at clock 0 both
denominators are the bare epsilon and the value is 0 (no division
failure). -/
theorem C9_utilization_eps {e : Env} (hr : Reach e) {m : ℕ}
    (hm : m < e.inst.numMas) :
    ((nextTime e (ifNoEligible e)).featMaUtiliz m =
      min ((nextTime e (ifNoEligible e)).machines m).utilizT
          (nextTime e (ifNoEligible e)).time /
        ((nextTime e (ifNoEligible e)).time + eps5)) ∧
    ((nextTime e (ifNoEligible e)).time = 0 →
      (nextTime e (ifNoEligible e)).featMaUtiliz m = 0) ∧
    ∀ a, Legal e a →
      ((step e a).featMaUtiliz m =
          min ((step e a).machines m).utilizT (step e a).time /
            ((step e a).time + eps9) ∨
        (step e a).featMaUtiliz m =
          min ((step e a).machines m).utilizT (step e a).time /
            ((step e a).time + eps5)) ∧
      ((step e a).time = 0 → (step e a).featMaUtiliz m = 0) := by
  have hInv := Reach_Inv hr
  refine ⟨rfl, ?_, ?_⟩
  · intro h0
    show featMaUtilizNext e (ifNoEligible e) m = 0
    unfold featMaUtilizNext
    rw [machinesNext_utilizT]
    have h0' : timeNext e (ifNoEligible e) = 0 := h0
    rw [h0', min_eq_right (hInv.utilizT_nonneg m hm), zero_div]
  · intro a hl
    have hIs := Inv_step hInv hl
    have hdisj : (step e a).featMaUtiliz m =
        min ((step e a).machines m).utilizT (step e a).time /
          ((step e a).time + eps9) ∨
        (step e a).featMaUtiliz m =
        min ((step e a).machines m).utilizT (step e a).time /
          ((step e a).time + eps5) := by
      rcases advanceLoop_utiliz e.inst.numMas (stepSched e a) with heq | hf
      · left
        show (advanceLoop e.inst.numMas (stepSched e a)).featMaUtiliz m =
          min ((advanceLoop e.inst.numMas (stepSched e a)).machines m).utilizT
              (advanceLoop e.inst.numMas (stepSched e a)).time /
            ((advanceLoop e.inst.numMas (stepSched e a)).time + eps9)
        rw [heq]
        rfl
      · right
        exact hf m
    refine ⟨hdisj, ?_⟩
    intro h0
    have hu : 0 ≤ ((step e a).machines m).utilizT :=
      hIs.utilizT_nonneg m (by rw [step_inst]; exact hm)
    rcases hdisj with hc | hc <;>
      rw [hc, h0, min_eq_right hu, zero_div]

/-- Witness for the amended claim C9 at the fresh scenario environment. -/
theorem C9_utilization_eps_witness :
    (0 : ℕ) < (initEnv scenInst).inst.numMas ∧
    (nextTime (initEnv scenInst)
        (ifNoEligible (initEnv scenInst))).featMaUtiliz 0 =
      min ((nextTime (initEnv scenInst)
            (ifNoEligible (initEnv scenInst))).machines 0).utilizT
          (nextTime (initEnv scenInst)
            (ifNoEligible (initEnv scenInst))).time /
        ((nextTime (initEnv scenInst)
            (ifNoEligible (initEnv scenInst))).time + eps5) :=
  ⟨by with_unfolding_all decide,
    (C9_utilization_eps (Reach.init scenInst scenWF)
      (by with_unfolding_all decide)).1⟩

/-- Claim C10: a `next_time` call leaves the clock untouched whenever the
eligibility flag is nonzero or the slot is done; only stalled, unfinished
slots can have their clock modified. -/
theorem C10_time_frame (e : Env) (f : ℚ) (h : f ≠ 0 ∨ e.doneB = true) :
    (nextTime e f).time = e.time := by
  have hn : ¬ (needTrans e f = true) := by
    intro hnt
    obtain ⟨hz, hnd⟩ := needTrans_true_elim hnt
    rcases h with h | h
    · exact h hz
    · rw [h] at hnd
      cases hnd
  rw [nextTime_time]
  unfold timeNext
  rw [if_neg hn]

/-- Witness for claim C10 at the fresh scenario environment with a nonzero
flag. -/
theorem C10_time_frame_witness :
    ((1 : ℚ) ≠ 0 ∨ (initEnv scenInst).doneB = true) ∧
    (nextTime (initEnv scenInst) 1).time = (initEnv scenInst).time :=
  ⟨Or.inl one_ne_zero,
    C10_time_frame (initEnv scenInst) 1 (Or.inl one_ne_zero)⟩

end FJSP
